import Mathlib

/-! A shallow embedding of the document-ingestion / knowledge-graph
construction pipeline of the `aio-mcp` repository (Go packages `pkg/graph`
and `pkg/graph/processors`), with theorems settling the frozen claims.

Modelling conventions, used throughout:
* Go `float64` values are modelled as rationals (`ℚ`); all float
  arithmetic in the modelled code is on small decimal constants.
* Go maps are modelled as association lists; a map read `m[k]` is
  `lookupA`, writes are append (new key) or `updateA` (existing key).
  Where a result genuinely depends on Go's nondeterministic map iteration
  order, the iteration order is an explicit parameter of the definition.
* `uuid.New()` is modelled as a fresh-counter supply (`nextUUID`): node
  IDs are naturals, fresh and pairwise distinct, exactly the property the
  code relies on.
* `map[string]interface{}` `Properties`/`Metadata` fields that are only
  copied, never read, by the modelled code are omitted; wall-clock
  timestamp fields (`ProcessedAt`, `GeneratedAt`, `CreatedAt`) likewise.
* Byte indices into strings become character indices (all concrete
  inputs in this file are ASCII, where the two coincide).
-/

namespace AioMcp

/-- Lookup in an association list, first entry wins (a Go map read
`v, ok := m[k]`; the association lists built below have pairwise distinct
keys, so this is exactly the map read). -/
def lookupA {κ α : Type} [DecidableEq κ] : List (κ × α) → κ → Option α
  | [], _ => none
  | (k, v) :: t, k' => if k' = k then some v else lookupA t k'

/-- Update the value stored under one key of an association list, leaving
every other entry alone (a Go map write `m[k] = f(m[k])` for a present
key). -/
def updateA {κ α : Type} [DecidableEq κ] (l : List (κ × α)) (k : κ) (f : α → α) :
    List (κ × α) :=
  l.map (fun p => if p.1 = k then (p.1, f p.2) else p)

/-- Character-level index of the first occurrence of `needle` in `hay`
(Go `strings.Index`, with byte offsets read as character offsets). -/
def subIndex (needle : List Char) : List Char → Option Nat
  | [] => if needle.isPrefixOf ([] : List Char) then some 0 else none
  | c :: t =>
    if needle.isPrefixOf (c :: t) then some 0
    else (subIndex needle t).map (· + 1)

/-- Substring test (Go `strings.Contains`); in Go,
`strings.Contains(s, sub)` holds exactly when `strings.Index(s, sub) ≥ 0`,
which is the reading used here. -/
def strContains (s sub : String) : Bool :=
  (subIndex sub.toList s.toList).isSome

/-- Go `strings.ToLower` restricted to ASCII input (character-wise
lowering). -/
def strToLower (s : String) : String :=
  ⟨s.toList.map Char.toLower⟩

/- ### Document model (`pkg/graph`, `types.go`)

`graph.Entity`: fields `Label`, `Type`, `Confidence` are the ones read by
the modelled code; `ID`, `Properties`, `Source`, `Metadata` and the
timestamps are write-only or unused there and are omitted. -/

structure Entity where
  label : String
  type : String
  confidence : ℚ
  deriving DecidableEq

/-- The `graph.Relationship` fields read by the modelled code (`Type`,
`From`, `To`, `Confidence`).  `From`/`To` hold entity labels at the
per-document stage.  `from` is a Lean keyword, hence `fromLabel`. -/
structure Relationship where
  type : String
  fromLabel : String
  toLabel : String
  confidence : ℚ
  deriving DecidableEq

/-- The `graph.Keyword` record produced by keyword extraction. -/
structure Keyword where
  text : String
  score : ℚ
  startPos : Nat
  endPos : Nat
  type : String
  deriving DecidableEq

/-- The `graph.Document` fields read or written by the modelled code.
`Sentences` is never written by any modelled processor and never read;
`Metadata` is threaded through opaquely and modelled as an association
list of strings. -/
structure Document where
  id : String
  content : String
  entities : List Entity
  relations : List Relationship
  keywords : List Keyword
  metadata : List (String × String)
  deriving DecidableEq

/- ### Knowledge graph accumulator (`pkg/graph/knowledge_graph.go`,
`KnowledgeGraphGenerator`) -/

/-- A node of the accumulated graph.  `id` is the minted UUID (modelled
as a natural drawn from the generator's fresh counter). -/
structure Node where
  id : Nat
  label : String
  type : String
  sources : List String
  deriving DecidableEq

/-- An edge of the accumulated graph.  The Go edge ID string
`fmt.Sprintf("%s-%s-%s", sourceID, relType, targetID)` is modelled as the
key triple `(source, type, target)` itself (the relation-type constants
contain no hyphen, so the Go encoding is injective on the values that
occur). -/
structure Edge where
  source : Nat
  target : Nat
  type : String
  weight : ℚ
  deriving DecidableEq

/-- State of a `KnowledgeGraphGenerator`: `nodes` keyed by node ID,
`edges` keyed by `(sourceID, relType, targetID)`, the set of processed
document IDs, the label→nodeID index, and the fresh-UUID counter. -/
structure GenState where
  nodes : List (Nat × Node)
  edges : List ((Nat × String × Nat) × Edge)
  documentMap : List String
  nodeIDMap : List (String × Nat)
  nextUUID : Nat
  deriving DecidableEq

/-- `NewKnowledgeGraphGenerator()`: all maps empty. -/
def initGen : GenState :=
  { nodes := [], edges := [], documentMap := [], nodeIDMap := [], nextUUID := 0 }

/-- The entity loop body of `KnowledgeGraphGenerator.AddDocument`: look up
the entity's label; if new, mint a node ID and store a node with
`Sources = [doc.ID]`; if existing, append `doc.ID` to that node's
`Sources`. -/
def addEntityNode (docID : String) (st : GenState) (e : Entity) : GenState :=
  match lookupA st.nodeIDMap e.label with
  | none =>
    { st with
      nodes := st.nodes ++
        [(st.nextUUID, { id := st.nextUUID, label := e.label, type := e.type, sources := [docID] })]
      nodeIDMap := st.nodeIDMap ++ [(e.label, st.nextUUID)]
      nextUUID := st.nextUUID + 1 }
  | some nid =>
    { st with
      nodes := updateA st.nodes nid (fun n => { n with sources := n.sources ++ [docID] }) }

/-- The relationship loop body of `KnowledgeGraphGenerator.AddDocument`:
resolve `From`/`To` labels through the index (a relation naming an
unknown label is skipped with a warning); a new `(source, type, target)`
key creates an edge at the relationship's confidence, an existing key
updates the edge's weight to the average of old weight and new
confidence. -/
def addRelationEdge (st : GenState) (r : Relationship) : GenState :=
  match lookupA st.nodeIDMap r.fromLabel, lookupA st.nodeIDMap r.toLabel with
  | some s, some t =>
    match lookupA st.edges (s, r.type, t) with
    | none =>
      { st with
        edges := st.edges ++
          [((s, r.type, t), { source := s, target := t, type := r.type, weight := r.confidence })] }
    | some _ =>
      { st with
        edges := updateA st.edges (s, r.type, t)
          (fun e => { e with weight := (e.weight + r.confidence) / 2 }) }
  | _, _ => st

/-- `KnowledgeGraphGenerator.AddDocument`: a silent no-op on an
already-seen document ID; otherwise mark the ID processed, fold the
entities into nodes, then the relationships into edges.  (The Go `nil`
document check cannot fire for a Lean value; the method returns `nil` on
every path modelled here.) -/
def addDocument (st : GenState) (doc : Document) : GenState :=
  if doc.id ∈ st.documentMap then st
  else
    doc.relations.foldl addRelationEdge
      (doc.entities.foldl (addEntityNode doc.id)
        { st with documentMap := st.documentMap ++ [doc.id] })

/- ### Association-list lemmas -/

theorem lookupA_nil {κ α : Type} [DecidableEq κ] (k : κ) :
    lookupA ([] : List (κ × α)) k = none := rfl

theorem lookupA_cons {κ α : Type} [DecidableEq κ] (k' : κ) (v : α) (t : List (κ × α)) (k : κ) :
    lookupA ((k', v) :: t) k = if k = k' then some v else lookupA t k := rfl

theorem lookupA_append_some {κ α : Type} [DecidableEq κ] {l l' : List (κ × α)} {k : κ} {v : α}
    (h : lookupA l k = some v) : lookupA (l ++ l') k = some v := by
  induction l with
  | nil => simp [lookupA_nil] at h
  | cons p t ih =>
    rcases p with ⟨k', v'⟩
    rw [List.cons_append, lookupA_cons] at *
    by_cases hk : k = k' <;> simp [hk] at h ⊢ <;> simp_all

theorem lookupA_append_none {κ α : Type} [DecidableEq κ] {l : List (κ × α)} {k : κ}
    (h : lookupA l k = none) (l' : List (κ × α)) :
    lookupA (l ++ l') k = lookupA l' k := by
  induction l with
  | nil => rfl
  | cons p t ih =>
    rcases p with ⟨k', v'⟩
    rw [lookupA_cons] at h
    rw [List.cons_append, lookupA_cons]
    by_cases hk : k = k' <;> simp [hk] at h ⊢ <;> simp_all

theorem updateA_map_fst {κ α : Type} [DecidableEq κ] (l : List (κ × α)) (k : κ) (f : α → α) :
    (updateA l k f).map Prod.fst = l.map Prod.fst := by
  induction l with
  | nil => rfl
  | cons p t ih =>
    by_cases h : p.1 = k <;> simp [updateA, h] at ih ⊢ <;> exact ih

theorem length_updateA {κ α : Type} [DecidableEq κ] (l : List (κ × α)) (k : κ) (f : α → α) :
    (updateA l k f).length = l.length :=
  List.length_map l _

theorem mem_updateA {κ α : Type} [DecidableEq κ] {l : List (κ × α)} {k : κ} {f : α → α}
    {p' : κ × α} (h : p' ∈ updateA l k f) :
    ∃ p ∈ l, p' = if p.1 = k then (p.1, f p.2) else p := by
  rcases List.mem_map.mp h with ⟨p, hp, hep⟩
  exact ⟨p, hp, hep.symm⟩

theorem lookupA_updateA_self {κ α : Type} [DecidableEq κ] {l : List (κ × α)} {k : κ} {v : α}
    (f : α → α) (h : lookupA l k = some v) :
    lookupA (updateA l k f) k = some (f v) := by
  induction l with
  | nil => simp [lookupA_nil] at h
  | cons p t ih =>
    rcases p with ⟨k', v'⟩
    rw [lookupA_cons] at h
    by_cases hk : k = k'
    · simp [hk] at h
      simp [updateA, lookupA_cons, hk, h]
    · simp [hk] at h
      simp only [updateA, List.map_cons]
      have hk' : ¬ ((k', v').1 = k) := fun hc => hk (by simp at hc; exact hc.symm)
      rw [if_neg hk', lookupA_cons, if_neg hk]
      exact ih h

theorem eq_of_mem_nodup_keys {κ α : Type} [DecidableEq κ] {l : List (κ × α)}
    (hnd : (l.map Prod.fst).Nodup) {p q : κ × α}
    (hp : p ∈ l) (hq : q ∈ l) (hk : p.1 = q.1) : p = q := by
  induction l with
  | nil => cases hp
  | cons r t ih =>
    simp only [List.map_cons, List.nodup_cons] at hnd
    rcases List.mem_cons.mp hp with hp1 | hp1 <;> rcases List.mem_cons.mp hq with hq1 | hq1
    · rw [hp1, hq1]
    · exfalso
      have hm : q.1 ∈ List.map Prod.fst t := List.mem_map_of_mem Prod.fst hq1
      rw [← hk, hp1] at hm
      exact hnd.1 hm
    · exfalso
      have hm : p.1 ∈ List.map Prod.fst t := List.mem_map_of_mem Prod.fst hp1
      rw [hk, hq1] at hm
      exact hnd.1 hm
    · exact ih hnd.2 hp1 hq1

/- ### The accumulator invariant behind claim C1 -/

/-- Invariant of every reachable `KnowledgeGraphGenerator` state: node IDs
are below the fresh counter, node IDs are pairwise distinct, and the
label index maps every stored node's label to that node's key. -/
def GenInv (st : GenState) : Prop :=
  (∀ p ∈ st.nodes, p.1 < st.nextUUID) ∧
  (st.nodes.map Prod.fst).Nodup ∧
  (∀ p ∈ st.nodes, lookupA st.nodeIDMap p.2.label = some p.1)

theorem genInv_initGen : GenInv initGen := by
  refine ⟨?_, ?_, ?_⟩ <;> simp [initGen, GenInv]

theorem addEntityNode_fields (docID : String) (st : GenState) (e : Entity) :
    (addEntityNode docID st e).documentMap = st.documentMap ∧
    (addEntityNode docID st e).edges = st.edges := by
  unfold addEntityNode
  split <;> exact ⟨rfl, rfl⟩

theorem addRelationEdge_fields (st : GenState) (r : Relationship) :
    (addRelationEdge st r).nodes = st.nodes ∧
    (addRelationEdge st r).nodeIDMap = st.nodeIDMap ∧
    (addRelationEdge st r).nextUUID = st.nextUUID ∧
    (addRelationEdge st r).documentMap = st.documentMap := by
  unfold addRelationEdge
  split
  · split <;> exact ⟨rfl, rfl, rfl, rfl⟩
  · exact ⟨rfl, rfl, rfl, rfl⟩

theorem genInv_addEntityNode (docID : String) {st : GenState} (e : Entity)
    (h : GenInv st) : GenInv (addEntityNode docID st e) := by
  obtain ⟨hlt, hnd, hidx⟩ := h
  unfold addEntityNode
  split
  next hl =>
    refine ⟨?_, ?_, ?_⟩
    · intro p hp
      rcases List.mem_append.mp hp with hp1 | hp1
      · exact Nat.lt_succ_of_lt (hlt p hp1)
      · simp at hp1; rw [hp1]; exact Nat.lt_succ_self _
    · simp only [List.map_append, List.map_cons, List.map_nil]
      rw [List.nodup_append]
      refine ⟨hnd, List.nodup_singleton _, ?_⟩
      intro x hx
      simp only [List.mem_singleton]
      intro hc
      rcases List.mem_map.mp hx with ⟨p, hp, hfp⟩
      exact absurd (hfp ▸ hc ▸ hlt p hp) (Nat.lt_irrefl _)
    · intro p hp
      rcases List.mem_append.mp hp with hp1 | hp1
      · exact lookupA_append_some (hidx p hp1)
      · simp at hp1
        rw [hp1]
        rw [lookupA_append_none hl]
        simp [lookupA_cons]
  next nid hl =>
    refine ⟨?_, ?_, ?_⟩
    · intro p hp
      have hp' : p ∈ updateA st.nodes nid
          (fun n => { n with sources := n.sources ++ [docID] }) := hp
      rcases mem_updateA hp' with ⟨q, hq, hpq⟩
      have : p.1 = q.1 := by rw [hpq]; split <;> rfl
      rw [this]; exact hlt q hq
    · show (List.map Prod.fst (updateA st.nodes nid
        (fun n => { n with sources := n.sources ++ [docID] }))).Nodup
      rw [updateA_map_fst]; exact hnd
    · intro p hp
      have hp' : p ∈ updateA st.nodes nid
          (fun n => { n with sources := n.sources ++ [docID] }) := hp
      rcases mem_updateA hp' with ⟨q, hq, hpq⟩
      have h1 : p.1 = q.1 := by rw [hpq]; split <;> rfl
      have h2 : p.2.label = q.2.label := by rw [hpq]; split <;> rfl
      rw [h1, h2]
      exact hidx q hq

theorem genInv_addRelationEdge {st : GenState} (r : Relationship)
    (h : GenInv st) : GenInv (addRelationEdge st r) := by
  obtain ⟨h1, h2, h3, _⟩ := addRelationEdge_fields st r
  obtain ⟨hlt, hnd, hidx⟩ := h
  exact ⟨by rw [h1, h3]; exact hlt, by rw [h1]; exact hnd, by rw [h1, h2]; exact hidx⟩

theorem genInv_foldl_addEntityNode (docID : String) (es : List Entity) {st : GenState}
    (h : GenInv st) : GenInv (es.foldl (addEntityNode docID) st) := by
  induction es generalizing st with
  | nil => exact h
  | cons e t ih => exact ih (genInv_addEntityNode docID e h)

theorem genInv_foldl_addRelationEdge (rs : List Relationship) {st : GenState}
    (h : GenInv st) : GenInv (rs.foldl addRelationEdge st) := by
  induction rs generalizing st with
  | nil => exact h
  | cons r t ih => exact ih (genInv_addRelationEdge r h)

theorem genInv_addDocument {st : GenState} (d : Document)
    (h : GenInv st) : GenInv (addDocument st d) := by
  unfold addDocument
  split
  · exact h
  · exact genInv_foldl_addRelationEdge d.relations
      (genInv_foldl_addEntityNode d.id d.entities h)

theorem genInv_foldl_addDocument (docs : List Document) :
    GenInv (docs.foldl addDocument initGen) := by
  have : ∀ (ds : List Document) (st : GenState), GenInv st → GenInv (ds.foldl addDocument st) := by
    intro ds
    induction ds with
    | nil => exact fun st h => h
    | cons d t ih => exact fun st h => ih _ (genInv_addDocument d h)
  exact this docs initGen genInv_initGen

theorem foldl_addEntityNode_documentMap (docID : String) (es : List Entity) (st : GenState) :
    (es.foldl (addEntityNode docID) st).documentMap = st.documentMap := by
  induction es generalizing st with
  | nil => rfl
  | cons e t ih => rw [List.foldl_cons, ih, (addEntityNode_fields docID st e).1]

theorem foldl_addRelationEdge_documentMap (rs : List Relationship) (st : GenState) :
    (rs.foldl addRelationEdge st).documentMap = st.documentMap := by
  induction rs generalizing st with
  | nil => rfl
  | cons r t ih => rw [List.foldl_cons, ih, (addRelationEdge_fields st r).2.2.2]

theorem addDocument_seen {st : GenState} {d : Document}
    (h : d.id ∈ st.documentMap) : addDocument st d = st := by
  unfold addDocument
  exact if_pos h

theorem addDocument_docMap_mem (st : GenState) (d : Document) :
    d.id ∈ (addDocument st d).documentMap := by
  unfold addDocument
  split
  · assumption
  · rw [foldl_addRelationEdge_documentMap, foldl_addEntityNode_documentMap]
    simp

/- ### Concrete documents used as witnesses for claims C1 and C2 -/

/-- Concrete document `d1`: entities `A`, `B` and one `DEPENDS_ON`
relationship A→B with confidence `0.8`. -/
def docD1 : Document :=
  { id := "d1", content := "",
    entities := [{ label := "A", type := "TECHNOLOGY", confidence := 9/10 },
                 { label := "B", type := "TECHNOLOGY", confidence := 9/10 }],
    relations := [{ type := "DEPENDS_ON", fromLabel := "A", toLabel := "B", confidence := 8/10 }],
    keywords := [], metadata := [] }

/-- Concrete document `d2`: same entities, same relationship key, with
confidence `0.6`. -/
def docD2 : Document :=
  { id := "d2", content := "",
    entities := [{ label := "A", type := "TECHNOLOGY", confidence := 9/10 },
                 { label := "B", type := "TECHNOLOGY", confidence := 9/10 }],
    relations := [{ type := "DEPENDS_ON", fromLabel := "A", toLabel := "B", confidence := 6/10 }],
    keywords := [], metadata := [] }

/-- The lone relationship of `docD2`. -/
def relD2 : Relationship :=
  { type := "DEPENDS_ON", fromLabel := "A", toLabel := "B", confidence := 6/10 }

/-- The edge stored after folding `docD1` into a fresh generator. -/
def edgeD1 : Edge :=
  { source := 0, target := 1, type := "DEPENDS_ON", weight := 8/10 }

/-- C1: `AddDocument` called a second time with an already-seen document
ID leaves the entire generator state (node map, edge map, processed-ID
set, label index, fresh counter — hence every node's `Sources` list)
exactly as it was after the first call, and across any sequence of
`AddDocument` calls on a fresh generator there is at most one node per
distinct entity label. -/
theorem addDocument_idempotent_unique_labels :
    (∀ (st : GenState) (d d' : Document), d'.id = d.id →
      addDocument (addDocument st d) d' = addDocument st d) ∧
    (∀ (docs : List Document), ∀ p ∈ (docs.foldl addDocument initGen).nodes,
      ∀ q ∈ (docs.foldl addDocument initGen).nodes, p.2.label = q.2.label → p = q) := by
  constructor
  · intro st d d' hid
    apply addDocument_seen
    rw [hid]
    exact addDocument_docMap_mem st d
  · intro docs p hp q hq hlab
    obtain ⟨hlt, hnd, hidx⟩ := genInv_foldl_addDocument docs
    have h1 := hidx p hp
    have h2 := hidx q hq
    rw [hlab] at h1
    exact eq_of_mem_nodup_keys hnd hp hq (Option.some.inj (h1.symm.trans h2))

theorem addDocument_idempotent_unique_labels_witness :
    addDocument (addDocument initGen docD1) docD1 = addDocument initGen docD1 ∧
    ((0 : Nat), ({ id := 0, label := "A", type := "TECHNOLOGY", sources := ["d1"] } : Node)) =
      ((0 : Nat), ({ id := 0, label := "A", type := "TECHNOLOGY", sources := ["d1"] } : Node)) :=
  ⟨addDocument_idempotent_unique_labels.1 initGen docD1 docD1 rfl,
   addDocument_idempotent_unique_labels.2 [docD1] _ (by decide) _ (by decide) (by decide)⟩

/-- C2: a relationship whose `(sourceNodeID, type, targetNodeID)` key
already has an edge updates that edge's weight to
`(oldWeight + newConfidence) / 2` and creates no new edge; in particular
two documents with `DEPENDS_ON` relationships A→B at confidences `0.8`
and `0.6` produce, in either order of addition, a single edge of weight
`0.7`. -/
theorem edge_weight_running_average :
    (∀ (st : GenState) (r : Relationship) (s t : Nat) (e : Edge),
      lookupA st.nodeIDMap r.fromLabel = some s →
      lookupA st.nodeIDMap r.toLabel = some t →
      lookupA st.edges (s, r.type, t) = some e →
      lookupA (addRelationEdge st r).edges (s, r.type, t) =
        some { e with weight := (e.weight + r.confidence) / 2 } ∧
      (addRelationEdge st r).edges.length = st.edges.length) ∧
    ((addDocument (addDocument initGen docD1) docD2).edges.map (fun p => p.2.weight) = [7/10] ∧
     (addDocument (addDocument initGen docD2) docD1).edges.map (fun p => p.2.weight) = [7/10]) := by
  constructor
  · intro st r s t e hs ht he
    unfold addRelationEdge
    simp only [hs, ht, he]
    exact ⟨lookupA_updateA_self _ he, length_updateA _ _ _⟩
  · constructor
    · have h : (addDocument (addDocument initGen docD1) docD2).edges.map (fun p => p.2.weight)
          = [((8 : ℚ)/10 + 6/10)/2] := rfl
      rw [h]
      norm_num
    · have h : (addDocument (addDocument initGen docD2) docD1).edges.map (fun p => p.2.weight)
          = [((6 : ℚ)/10 + 8/10)/2] := rfl
      rw [h]
      norm_num

theorem edge_weight_running_average_witness :
    lookupA (addRelationEdge (addDocument initGen docD1) relD2).edges
        (0, relD2.type, 1) =
      some { edgeD1 with weight := (edgeD1.weight + relD2.confidence) / 2 } ∧
    (addRelationEdge (addDocument initGen docD1) relD2).edges.length =
      (addDocument initGen docD1).edges.length :=
  edge_weight_running_average.1 (addDocument initGen docD1) relD2 0 1 edgeD1
    (by decide) (by decide) rfl

/- ### Pipeline orchestrator (`pkg/graph/pipeline.go`, `TextPipeline`) -/

/-- A pipeline stage (`DocumentProcessor.Process`): content bytes and
metadata to a processed document or an error; errors are modelled by
their message strings. -/
def Processor : Type :=
  String → List (String × String) → Except String Document

/-- The stage chain inside `TextPipeline.Process`: stage `i` receives
stage `i-1`'s output document (its content and metadata) and a stage
error is forwarded unchanged through the remaining stage channels to the
final result.  The goroutine/channel plumbing in the source is a linear
dataflow — stage `i` reads exactly stage `i-1`'s result — so the
concurrent execution computes this sequential fold (the `ctx` cancellation
branches are not modelled). -/
def runStages : List Processor → Document → Except String Document
  | [], d => .ok d
  | p :: ps, d =>
    match p d.content d.metadata with
    | .error e => .error e
    | .ok d' => runStages ps d'

/-- `TextPipeline.Process` up to the final write-back: an empty pipeline
is the error `no processors configured in pipeline`; otherwise the stage
chain's result. -/
def process (procs : List Processor) (doc : Document) : Except String Document :=
  if procs.isEmpty then .error "no processors configured in pipeline"
  else runStages procs doc

/-- `TextPipeline.Process` including the write-back `*doc = *finalStage.doc`
(performed only on success): the final value of `doc` paired with the
returned error. -/
def processUpd (procs : List Processor) (doc : Document) : Document × Option String :=
  match process procs doc with
  | .ok d' => (d', none)
  | .error e => (doc, some e)

/-- Fuel-indexed helper for `chunks10`: one fuel unit per loop iteration
(the list length is always enough fuel, since each iteration consumes a
non-empty prefix). -/
def chunksGo {α : Type} : Nat → List α → List (List α)
  | _, [] => []
  | 0, _ :: _ => []
  | fuel + 1, d :: ds => ((d :: ds).take 10) :: chunksGo fuel ((d :: ds).drop 10)

/-- Consecutive batches of at most 10 documents (the `i += p.batchSize`
loop of `BatchProcess` with the fixed `batchSize` of 10 set by
`NewPipeline`). -/
def chunks10 {α : Type} (l : List α) : List (List α) :=
  chunksGo l.length l

/-- One batch of `BatchProcess`: every document of the batch is processed
(concurrently in Go, but each goroutine touches only its own document),
yielding its updated value and its error, if any. -/
def processBatch (procs : List Processor) (batch : List Document) :
    List (Document × Option String) :=
  batch.map (processUpd procs)

/-- The errors received from a batch's error channel.  Goroutines send in
completion order, which is scheduler-dependent; the model collects in
batch order.  Which single error gets wrapped below therefore depends on
the scheduler in Go — that exactly one error is wrapped does not. -/
def batchErrors (rs : List (Document × Option String)) : List String :=
  rs.filterMap Prod.snd

/-- The batch loop of `BatchProcess`: after a batch completes, if its
error list is non-empty, return `batch processing failed: <first received
error>` at once, leaving the documents of later batches untouched;
otherwise continue with the next batch. -/
def batchLoop (procs : List Processor) : List (List Document) → List Document × Option String
  | [] => ([], none)
  | b :: bs =>
    match batchErrors (processBatch procs b) with
    | [] =>
      ((processBatch procs b).map Prod.fst ++ (batchLoop procs bs).1, (batchLoop procs bs).2)
    | e :: _ =>
      ((processBatch procs b).map Prod.fst ++ bs.flatten,
       some ("batch processing failed: " ++ e))

/-- `TextPipeline.BatchProcess`: partition into batches of at most 10 and
run the batch loop; the result pairs the final document values (in input
order) with the returned error. -/
def batchProcess (procs : List Processor) (docs : List Document) :
    List Document × Option String :=
  batchLoop procs (chunks10 docs)

/- ### Claims C6 and C7: pipeline error semantics -/

/-- A stage that always fails with the message `boom`. -/
def boomProc : Processor := fun _ _ => .error "boom"

/-- A stage whose error message names the content of the document it
failed on. -/
def failContentProc : Processor := fun c _ => .error ("fail-" ++ c)

/-- A plain input document with a non-empty ID. -/
def doc0 : Document :=
  { id := "orig", content := "x", entities := [], relations := [], keywords := [],
    metadata := [] }

/-- A second plain input document. -/
def doc1 : Document :=
  { id := "orig2", content := "y", entities := [], relations := [], keywords := [],
    metadata := [] }

theorem runStages_append_error {ps : List Processor} {p : Processor} (qs : List Processor)
    {doc d' : Document} {e : String}
    (h1 : runStages ps doc = .ok d') (h2 : p d'.content d'.metadata = .error e) :
    runStages (ps ++ p :: qs) doc = .error e := by
  induction ps generalizing doc with
  | nil =>
    simp only [runStages] at h1
    cases h1
    simp only [List.nil_append, runStages, h2]
  | cons q ps ih =>
    rw [List.cons_append]
    simp only [runStages] at h1 ⊢
    cases hq : q doc.content doc.metadata with
    | error e' => rw [hq] at h1; cases h1
    | ok d'' =>
      rw [hq] at h1
      simp only at h1
      exact ih h1

/-- C6 counterexample: a single stage failing with message `boom` makes
`Process` return exactly the string `boom` — the underlying cause
verbatim, containing no digit, hence naming no stage index and wrapping
nothing — refuting the claim that the returned error names the failing
stage's index.  (The document is indeed left unmodified.) -/
theorem process_error_unwrapped_counterexample :
    processUpd [boomProc] doc0 = (doc0, some "boom") ∧
    ∀ c ∈ "boom".toList, ¬ c.isDigit := by
  exact ⟨rfl, by decide⟩

/-- C6 amended: when a stage fails, `Process` returns the first failing
stage's error verbatim (no stage index is added, nothing is wrapped) and
the original document is left entirely unmodified; `doc` is overwritten
with the final stage's output exactly when every stage succeeds. -/
theorem process_error_propagation :
    (∀ (procs : List Processor) (doc : Document) (e : String),
      process procs doc = .error e → processUpd procs doc = (doc, some e)) ∧
    (∀ (ps : List Processor) (p : Processor) (qs : List Processor)
      (doc d' : Document) (e : String),
      runStages ps doc = .ok d' → p d'.content d'.metadata = .error e →
      process (ps ++ p :: qs) doc = .error e) ∧
    (∀ (procs : List Processor) (doc d' : Document),
      process procs doc = .ok d' → processUpd procs doc = (d', none)) := by
  refine ⟨?_, ?_, ?_⟩
  · intro procs doc e h
    unfold processUpd
    rw [h]
  · intro ps p qs doc d' e h1 h2
    unfold process
    rw [if_neg (by simp)]
    exact runStages_append_error qs h1 h2
  · intro procs doc d' h
    unfold processUpd
    rw [h]

theorem process_error_propagation_witness :
    processUpd [boomProc] doc0 = (doc0, some "boom") ∧
    process ([] ++ boomProc :: []) doc0 = .error "boom" ∧
    processUpd [fun _ _ => .ok doc1] doc0 = (doc1, none) :=
  ⟨process_error_propagation.1 [boomProc] doc0 "boom" rfl,
   process_error_propagation.2.1 [] boomProc [] doc0 doc0 "boom" rfl rfl,
   process_error_propagation.2.2 [fun _ _ => .ok doc1] doc0 doc1 rfl⟩

theorem batchErrors_eq_nil {procs : List Processor} {b : List Document} :
    batchErrors (processBatch procs b) = [] ↔
      ∀ d ∈ b, (processUpd procs d).2 = none := by
  unfold batchErrors processBatch
  rw [List.filterMap_eq_nil_iff]
  constructor
  · intro h d hd
    exact h _ (List.mem_map_of_mem _ hd)
  · intro h r hr
    rcases List.mem_map.mp hr with ⟨d, hd, hrd⟩
    rw [← hrd]
    exact h d hd

theorem batchLoop_none_iff (procs : List Processor) (bs : List (List Document)) :
    (batchLoop procs bs).2 = none ↔ ∀ b ∈ bs, ∀ d ∈ b, (processUpd procs d).2 = none := by
  induction bs with
  | nil => simp [batchLoop]
  | cons b bs ih =>
    cases hb : batchErrors (processBatch procs b) with
    | nil =>
      simp only [batchLoop, hb]
      rw [List.forall_mem_cons]
      constructor
      · intro h
        exact ⟨batchErrors_eq_nil.mp hb, (ih.mp h)⟩
      · intro h
        exact ih.mpr h.2
    | cons e rest =>
      simp only [batchLoop, hb]
      constructor
      · intro h
        cases h
      · intro h
        have h0 : batchErrors (processBatch procs b) = [] :=
          batchErrors_eq_nil.mpr (fun d hd => h b (List.mem_cons_self b bs) d hd)
        rw [h0] at hb
        cases hb

theorem batchLoop_success_val (procs : List Processor) (bs : List (List Document))
    (h : (batchLoop procs bs).2 = none) :
    (batchLoop procs bs).1 = bs.flatten.map (fun d => (processUpd procs d).1) := by
  induction bs with
  | nil => simp [batchLoop]
  | cons b bs ih =>
    cases hb : batchErrors (processBatch procs b) with
    | nil =>
      simp only [batchLoop, hb] at h ⊢
      rw [List.flatten_cons, List.map_append, ih h]
      unfold processBatch
      rw [List.map_map]
      rfl
    | cons e rest =>
      simp only [batchLoop, hb] at h
      cases h

theorem chunksGo_flatten {α : Type} (fuel : Nat) (l : List α) (h : l.length ≤ fuel) :
    (chunksGo fuel l).flatten = l := by
  induction fuel generalizing l with
  | zero =>
    rcases l with _ | ⟨d, ds⟩
    · rfl
    · simp at h
  | succ fuel ih =>
    rcases l with _ | ⟨d, ds⟩
    · rfl
    · rw [chunksGo, List.flatten_cons, ih]
      · exact List.take_append_drop 10 (d :: ds)
      · rw [List.length_drop]
        simp at h ⊢
        omega

theorem chunks10_flatten {α : Type} (l : List α) : (chunks10 l).flatten = l :=
  chunksGo_flatten l.length l (Nat.le_refl _)

theorem chunksGo_bound {α : Type} (fuel : Nat) (l : List α) :
    ∀ b ∈ chunksGo fuel l, b.length ≤ 10 := by
  induction fuel generalizing l with
  | zero =>
    rcases l with _ | ⟨d, ds⟩ <;> intro b hb <;> cases hb
  | succ fuel ih =>
    rcases l with _ | ⟨d, ds⟩
    · intro b hb; cases hb
    · intro b hb
      rcases List.mem_cons.mp hb with hb1 | hb1
      · rw [hb1]; exact List.length_take_le 10 _
      · exact ih _ b hb1

theorem chunks10_bound {α : Type} (l : List α) : ∀ b ∈ chunks10 l, b.length ≤ 10 :=
  chunksGo_bound l.length l

/-- C7 counterexample: with one stage whose error names the failing
document's content, and two documents `x`, `y` that both fail,
`BatchProcess` returns `batch processing failed: fail-x` — an error that
does not mention the second collected failure `fail-y` at all (third
conjunct: document `y` did fail, with error `fail-y`) — refuting the
claim that the returned error reflects all per-document failures. -/
theorem batch_error_not_aggregated_counterexample :
    (batchProcess [failContentProc] [doc0, doc1]).2 =
      some "batch processing failed: fail-x" ∧
    strContains "batch processing failed: fail-x" "fail-y" = false ∧
    (processUpd [failContentProc] doc1).2 = some "fail-y" := by
  refine ⟨rfl, by decide, rfl⟩

/-- C7 amended: `BatchProcess` partitions its input into consecutive
batches of at most 10 documents; a batch with at least one failure makes
the call return a non-nil error wrapping the first received per-document
error (`batch processing failed: <e>`) — not all of them — while the
per-document results of that batch stand (succeeded documents keep their
processed state) and later batches are left untouched; the call returns
no error exactly when every document succeeded, in which case every
document holds its processed state; with zero processors and a non-empty
input it returns the wrapped `no processors configured in pipeline`
error. -/
theorem batchProcess_semantics :
    (∀ (docs : List Document),
      (∀ b ∈ chunks10 docs, b.length ≤ 10) ∧ (chunks10 docs).flatten = docs) ∧
    (∀ (procs : List Processor) (b : List Document) (bs : List (List Document))
      (e : String) (rest : List String),
      batchErrors (processBatch procs b) = e :: rest →
      batchLoop procs (b :: bs) =
        ((processBatch procs b).map Prod.fst ++ bs.flatten,
         some ("batch processing failed: " ++ e))) ∧
    (∀ (procs : List Processor) (docs : List Document),
      ((batchProcess procs docs).2 = none ↔
        ∀ d ∈ docs, (processUpd procs d).2 = none) ∧
      ((batchProcess procs docs).2 = none →
        (batchProcess procs docs).1 = docs.map (fun d => (processUpd procs d).1))) ∧
    (∀ (docs : List Document), docs ≠ [] →
      (batchProcess [] docs).2.isSome = true) := by
  refine ⟨?_, ?_, ?_, ?_⟩
  · intro docs
    exact ⟨chunks10_bound docs, chunks10_flatten docs⟩
  · intro procs b bs e rest h
    simp only [batchLoop, h]
  · intro procs docs
    constructor
    · rw [batchProcess, batchLoop_none_iff]
      constructor
      · intro h d hd
        have : d ∈ (chunks10 docs).flatten := by rw [chunks10_flatten]; exact hd
        rcases List.mem_flatten.mp this with ⟨b, hb, hdb⟩
        exact h b hb d hdb
      · intro h b hb d hdb
        apply h
        rw [← chunks10_flatten docs]
        exact List.mem_flatten.mpr ⟨b, hb, hdb⟩
    · intro h
      rw [batchProcess] at h ⊢
      rw [batchLoop_success_val procs _ h, chunks10_flatten]
  · intro docs hne
    rcases docs with _ | ⟨d, ds⟩
    · exact absurd rfl hne
    · cases h : (batchProcess [] (d :: ds)).2 with
      | some e => rfl
      | none =>
        exfalso
        rw [batchProcess] at h
        have hall := (batchLoop_none_iff [] (chunks10 (d :: ds))).mp h
        have hd : d ∈ (chunks10 (d :: ds)).flatten := by
          rw [chunks10_flatten]
          exact List.mem_cons_self d ds
        rcases List.mem_flatten.mp hd with ⟨b, hb, hdb⟩
        have hfail : (processUpd ([] : List Processor) d).2 =
            some "no processors configured in pipeline" := rfl
        rw [hall b hb d hdb] at hfail
        cases hfail

theorem batchProcess_semantics_witness :
    ((∀ b ∈ chunks10 [doc0, doc1], b.length ≤ 10) ∧
      (chunks10 [doc0, doc1]).flatten = [doc0, doc1]) ∧
    batchLoop [failContentProc] [[doc0]] =
      ((processBatch [failContentProc] [doc0]).map Prod.fst ++ List.flatten [],
       some ("batch processing failed: " ++ "fail-x")) ∧
    (batchProcess [] [doc0]).2.isSome = true :=
  ⟨batchProcess_semantics.1 [doc0, doc1],
   batchProcess_semantics.2.1 [failContentProc] [doc0] [] "fail-x" [] rfl,
   batchProcess_semantics.2.2.2 [doc0] (List.cons_ne_nil doc0 [])⟩

/- ### NLP processor (`pkg/graph/processors` NLP file, `NLPProcessor`) -/

/-- A `prose.Token`: surface text and Penn part-of-speech tag. -/
structure Tok where
  text : String
  tag : String
  deriving DecidableEq

/-- A `prose.Document` as the NLP code reads it: the raw text, the token
stream `doc.Tokens()` and the sentence texts `doc.Sentences()`.  The
prose library is an external collaborator; its output is the input
here. -/
structure ProseDoc where
  text : String
  tokens : List Tok
  sentences : List String
  deriving DecidableEq

/-- The domain-noun pattern list of `findNearestEntity`. -/
def nearestEntityPatterns : List String :=
  ["API", "SDK", "CLI", "GUI", "REST", "HTTP",
   "Database", "Server", "Client", "Service",
   "Container", "Cloud", "Cluster", "Pod",
   "Account", "Payment", "Transfer", "Loan",
   "Card", "Balance", "Transaction", "Investment",
   "Risk", "Compliance", "Bank", "Branch"]

/-- The inner pattern loop of `findNearestEntity`:
`strings.Contains(strings.ToLower(token.Text), strings.ToLower(pattern))`
for some pattern of the list. -/
def tokenMatchesPattern (t : Tok) : Bool :=
  nearestEntityPatterns.any (fun pat => strContains (strToLower t.text) (strToLower pat))

/-- The index sequence of the `findNearestEntity` scan loop.  Forward
(`direction = 1`): `i` starts at `pos + 1` and runs while
`i < min(pos + maxDistance, len)` with `maxDistance = 5`.  Backward
(`direction = -1`): `i` starts at `pos - 1` and runs down while
`i ≥ max(pos - 5, 0)` (for `pos = 0` the Go loop starts at `-1` and exits
immediately; `pos - 5` in `ℕ` is exactly Go's `max(pos-5, 0)`). -/
def scanIndices (len pos : Nat) (direction : Int) : List Nat :=
  if direction > 0 then
    List.range' (pos + 1) (min (pos + 5) len - (pos + 1))
  else
    (List.range (pos - (pos - 5))).map (fun k => pos - 1 - k)

/-- `NLPProcessor.findNearestEntity`: scan the index sequence in order and
return the first token matching a domain-noun pattern. -/
def findNearestEntity (tokens : List Tok) (pos : Nat) (direction : Int) : Option Tok :=
  (scanIndices tokens.length pos direction).findSome? (fun i =>
    match tokens[i]? with
    | some t => if tokenMatchesPattern t then some t else none
    | none => none)

/-- `isTechnicalVerb`'s closed verb set. -/
def technicalVerbs : List String :=
  ["deploys", "implements", "integrates", "connects",
   "hosts", "serves", "queries", "processes",
   "executes", "compiles", "builds", "tests"]

/-- `isBankingVerb`'s closed verb set. -/
def bankingVerbs : List String :=
  ["transfers", "deposits", "withdraws", "pays",
   "invests", "lends", "borrows", "processes",
   "approves", "declines", "validates", "authorizes"]

def isTechnicalVerb (v : String) : Bool :=
  technicalVerbs.contains (strToLower v)

def isBankingVerb (v : String) : Bool :=
  bankingVerbs.contains (strToLower v)

/-- The verb→relation table of `getTechRelationType`. -/
def techRelationMap : List (String × String) :=
  [("deploys", "DEPLOYS_TO"), ("implements", "IMPLEMENTS"),
   ("integrates", "INTEGRATES_WITH"), ("connects", "CONNECTS_TO"),
   ("hosts", "HOSTS"), ("serves", "SERVES"),
   ("queries", "QUERIES"), ("processes", "PROCESSES"),
   ("executes", "EXECUTES"), ("compiles", "COMPILES"),
   ("builds", "BUILDS"), ("tests", "TESTS")]

def getTechRelationType (v : String) : String :=
  (lookupA techRelationMap (strToLower v)).getD "RELATED_TO"

/-- The verb→relation table of `getBankingRelationType`. -/
def bankingRelationMap : List (String × String) :=
  [("transfers", "TRANSFERS_TO"), ("deposits", "DEPOSITS_INTO"),
   ("withdraws", "WITHDRAWS_FROM"), ("pays", "PAYS_TO"),
   ("invests", "INVESTS_IN"), ("lends", "LENDS_TO"),
   ("borrows", "BORROWS_FROM"), ("processes", "PROCESSES"),
   ("approves", "APPROVES"), ("declines", "DECLINES"),
   ("validates", "VALIDATES"), ("authorizes", "AUTHORIZES")]

def getBankingRelationType (v : String) : String :=
  (lookupA bankingRelationMap (strToLower v)).getD "RELATED_TO"

/-- The verb part-of-speech tags recognised by both relation loops
(`tok.Tag == "VB" || tok.Tag == "VBZ" || tok.Tag == "VBP"`). -/
def isVerbTag (tag : String) : Bool :=
  tag == "VB" || tag == "VBZ" || tag == "VBP"

/-- The first relation loop of `extractEntitiesAndRelations`: at each
technical/banking verb token, search backward for a subject and forward
for an object; when both are found emit a relationship typed by the tech
table with banking fallback (`RELATED_TO` falls through to the banking
table), confidence 0.85. -/
def extractRelationsPass1 (tokens : List Tok) : List Relationship :=
  tokens.enum.filterMap (fun p =>
    if isVerbTag p.2.tag then
      if isTechnicalVerb p.2.text || isBankingVerb p.2.text then
        match findNearestEntity tokens p.1 (-1), findNearestEntity tokens p.1 1 with
        | some subj, some obj =>
          some { type := if getTechRelationType p.2.text = "RELATED_TO"
                         then getBankingRelationType p.2.text
                         else getTechRelationType p.2.text,
                 fromLabel := subj.text, toLabel := obj.text, confidence := 85/100 }
        | _, _ => none
      else none
    else none)

/-- The `techRelations` table of the second relation loop. -/
def techRelationsTable : List (String × String) :=
  [("depends", "DEPENDS_ON"), ("implements", "IMPLEMENTS"),
   ("calls", "COMMUNICATES_WITH"), ("extends", "EXTENDS"),
   ("configures", "CONFIGURES"), ("deploys", "DEPLOYS"),
   ("monitors", "MONITORS"), ("tests", "TESTS"),
   ("integrates", "INTEGRATES"), ("orchestrates", "ORCHESTRATES")]

/-- The second relation loop (`Enhanced relation extraction using
techRelations`): at each verb token found in the `techRelations` table,
the same backward/forward search; emit with the table's type and
confidence 0.85. -/
def extractRelationsPass2 (tokens : List Tok) : List Relationship :=
  tokens.enum.filterMap (fun p =>
    if isVerbTag p.2.tag then
      match lookupA techRelationsTable (strToLower p.2.text) with
      | some relType =>
        match findNearestEntity tokens p.1 (-1), findNearestEntity tokens p.1 1 with
        | some subj, some obj =>
          some { type := relType, fromLabel := subj.text, toLabel := obj.text,
                 confidence := 85/100 }
        | _, _ => none
      | none => none
    else none)

/-- Both relation loops in source order (the relations slice receives all
of pass 1, then all of pass 2). -/
def extractRelations (tokens : List Tok) : List Relationship :=
  extractRelationsPass1 tokens ++ extractRelationsPass2 tokens

/- ### Entity extraction: the regex pattern table

Each `entityPatterns` key is a case-insensitive alternation of literals
(`(?i)(a|b|…)`), modelled as its list of alternatives in pattern order;
`http[s]?` expands to the alternatives `https`, `http` in that order
(greedy optional).  Go's `regexp` has leftmost-first semantics:
`FindAllStringIndex` scans left to right, at each position tries the
alternatives in order, and continues after the end of each match
(successive non-overlapping matches). -/

/-- Case-insensitive prefix test of a pattern against a character list
(both sides lowered, as `(?i)` does for ASCII). -/
def ciPrefix : List Char → List Char → Bool
  | [], _ => true
  | _ :: _, [] => false
  | a :: ps, c :: cs => (a.toLower == c.toLower) && ciPrefix ps cs

/-- Fuel-indexed helper for `scanAlts`: one fuel unit per scan step (the
remaining text length is always enough fuel, as each step consumes at
least one character). -/
def scanAltsGo (alts : List (List Char)) : Nat → List Char → Nat → List (Nat × Nat)
  | _, [], _ => []
  | 0, _ :: _, _ => []
  | fuel + 1, c :: rest, p =>
    match alts.find? (fun a => ciPrefix a (c :: rest)) with
    | some a => (p, p + a.length) :: scanAltsGo alts fuel (rest.drop (a.length - 1)) (p + a.length)
    | none => scanAltsGo alts fuel rest (p + 1)

/-- Leftmost-first non-overlapping scan of literal alternatives over the
text, returning `(start, end)` character index pairs
(`regexp.FindAllStringIndex(text, -1)` for an `(?i)`-literal
alternation). -/
def scanAlts (alts : List (List Char)) (hay : List Char) (p : Nat) : List (Nat × Nat) :=
  scanAltsGo alts hay.length hay p

/-- All matches of one pattern in the text. -/
def findAllMatches (alts : List String) (text : String) : List (Nat × Nat) :=
  scanAlts (alts.map String.toList) text.toList 0

/-- The character slice `text[a:b]` (byte indices read as character
indices; ASCII inputs). -/
def sliceStr (s : String) (a b : Nat) : String :=
  ⟨(s.toList.drop a).take (b - a)⟩

/-- The `entityPatterns` table in source-literal order.  It is a Go map,
so the iteration order used by the entity loop is nondeterministic; the
extraction below takes the order as a parameter. -/
def entityPatternsTable : List (List String × String) :=
  [(["kubernetes", "docker", "jenkins", "git", "terraform", "aws", "azure"], "TECHNOLOGY"),
   (["spring", "react", "angular", "vue", "django", "flask"], "FRAMEWORK"),
   (["java", "python", "golang", "javascript", "typescript"], "LANGUAGE"),
   (["rest", "graphql", "grpc", "soap", "websocket"], "API"),
   (["mysql", "postgresql", "mongodb", "redis", "elasticsearch"], "DATABASE"),
   (["microservices", "mvc", "mvvm", "cqrs", "event-sourcing"], "ARCH_PATTERN"),
   (["loan", "mortgage", "deposit", "credit card", "debit card", "savings account"],
    "FINANCIAL_PRODUCT"),
   (["payment", "transfer", "withdrawal", "deposit", "transaction"], "TRANSACTION"),
   (["usd", "eur", "gbp", "jpy", "thb", "sgd", "$", "€", "£", "¥"], "CURRENCY"),
   (["checking", "savings", "current", "investment", "retirement"], "ACCOUNT"),
   (["basel", "kyc", "aml", "fatca", "gdpr", "psd2"], "REGULATION"),
   (["credit risk", "market risk", "operational risk", "liquidity risk"], "RISK"),
   (["microservice", "api gateway", "load balancer", "cache", "queue"], "COMPONENT"),
   (["rest api", "graphql", "grpc", "webhook", "service mesh"], "SERVICE"),
   (["spring", "react", "angular", "vue", "django", "flask", "express"], "FRAMEWORK"),
   (["numpy", "pandas", "tensorflow", "pytorch", "kubernetes", "docker"], "LIBRARY"),
   (["https", "http", "tcp", "udp", "mqtt", "amqp", "websocket"], "PROTOCOL"),
   (["oauth", "jwt", "saml", "openid", "x509"], "SECURITY"),
   (["mysql", "postgresql", "mongodb", "redis", "elasticsearch", "kafka"], "DATABASE"),
   (["aws", "azure", "gcp", "cloud", "kubernetes", "docker"], "CLOUD"),
   (["jenkins", "gitlab", "github", "circleci", "argocd"], "DEVOPS"),
   (["microservices", "event-driven", "cqrs", "saga", "circuit breaker"], "ARCH_PATTERN"),
   (["singleton", "factory", "observer", "strategy", "decorator"], "DESIGN_PATTERN"),
   (["tensorflow", "pytorch", "scikit-learn", "bert", "gpt", "transformers"],
    "MACHINE_LEARNING"),
   (["java", "python", "golang", "javascript", "typescript", "rust"], "LANGUAGE"),
   (["junit", "pytest", "jest", "selenium", "cypress"], "TESTING"),
   (["prometheus", "grafana", "datadog", "newrelic", "splunk"], "MONITORING")]

/-- The entity loop of `extractEntitiesAndRelations`, iterating the
pattern table in the given order (in Go, the map's nondeterministic
iteration order): every match of every pattern becomes an entity labelled
by the matched text slice, typed by the pattern, confidence 0.9. -/
def extractEntities (order : List (List String × String)) (text : String) : List Entity :=
  order.flatMap (fun pe =>
    (findAllMatches pe.1 text).map (fun m =>
      { label := sliceStr text m.1 m.2, type := pe.2, confidence := 9/10 }))

/-- `NLPProcessor.extractEntitiesAndRelations`: the entity loop (order a
parameter, see above) followed by the two relation loops (which iterate
the token slice, deterministically). -/
def extractEntitiesAndRelations (order : List (List String × String)) (d : ProseDoc) :
    List Entity × List Relationship :=
  (extractEntities order d.text, extractRelations d.tokens)

/- ### Coreference resolution (`resolveCoreferenceChains`) -/

/-- The closed pronoun set of `isPronoun`. -/
def pronounList : List String :=
  ["he", "she", "it", "they", "him", "her", "them",
   "his", "hers", "its", "their", "this", "that", "these", "those"]

def isPronoun (w : String) : Bool :=
  pronounList.contains (strToLower w)

/-- `isMalePerson`'s indicator substrings. -/
def maleIndicators : List String :=
  ["Mr.", "Mr", "he", "him", "his", "father", "brother", "son"]

def isMalePerson (entity : String) : Bool :=
  maleIndicators.any (fun ind => strContains entity ind)

/-- `isFemalePerson`'s indicator substrings. -/
def femaleIndicators : List String :=
  ["Mrs.", "Mrs", "Ms.", "Ms", "she", "her", "mother", "sister", "daughter"]

def isFemalePerson (entity : String) : Bool :=
  femaleIndicators.any (fun ind => strContains entity ind)

def isPlural (entity : String) : Bool :=
  entity.endsWith "s" || entity.endsWith "ren" || entity.endsWith "ple" ||
    strContains entity " and "

/-- `canBeCoreferent`: gender/number agreement by pronoun class; a pronoun
in none of the three classes agrees with anything. -/
def canBeCoreferent (pronoun entity : String) : Bool :=
  if ["he", "him", "his"].contains (strToLower pronoun) then isMalePerson entity
  else if ["she", "her", "hers"].contains (strToLower pronoun) then isFemalePerson entity
  else if ["they", "them", "their", "theirs"].contains (strToLower pronoun) then isPlural entity
  else true

/-- Locating the pronoun: the first sentence (in order) whose text
contains the pronoun's label, paired with the label's character offset in
it (`strings.Contains` then `strings.Index`). -/
def findContainingSentence (sentences : List String) (lbl : String) : Option (Nat × Nat) :=
  sentences.enum.findSome? (fun p =>
    match subIndex lbl.toList p.2.toList with
    | some off => some (p.1, off)
    | none => none)

/-- The outer antecedent-window loop indices: `i` from the containing
sentence `cs` down to `max(cs - 3, 0)`. -/
def windowIdxs (cs : Nat) : List Nat :=
  (List.range 4).filterMap (fun k => if k ≤ cs then some (cs - k) else none)

/-- One inner-loop step of the antecedent search over `(bestDistance,
bestMatch)`: skip pronouns, check agreement, keep on strict distance
improvement (`distance = pronounPos + (cs - i) * 100`). -/
def corefScanStep (pronounLbl : String) (dist : Nat) (acc : Nat × Option Entity)
    (ent : Entity) : Nat × Option Entity :=
  if isPronoun ent.label then acc
  else if canBeCoreferent pronounLbl ent.label then
    if dist < acc.1 then (dist, some ent) else acc
  else acc

/-- The double scan loop of `resolveCoreferenceChains` (note: the inner
loop ranges over the whole entity slice — it applies no sentence-membership
filter), starting from `bestDistance = 1000000`. -/
def corefScan (entities : List Entity) (pronounLbl : String) (cs pos : Nat) : Option Entity :=
  ((windowIdxs cs).foldl
    (fun acc i => entities.foldl (corefScanStep pronounLbl (pos + (cs - i) * 100)) acc)
    (1000000, none)).2

/-- Resolution of one pronoun entity: locate its sentence, then run the
scan; `none` means the pronoun stays unresolved. -/
def resolvePronounEntity (entities : List Entity) (sentences : List String)
    (pronoun : Entity) : Option Entity :=
  match findContainingSentence sentences pronoun.label with
  | none => none
  | some (cs, pos) => corefScan entities pronoun.label cs pos

/-- `NLPProcessor.resolveCoreferenceChains`: pronoun slots are replaced
wholesale by the winning antecedent (when one exists); all other slots
pass through.  (The pronoun-index set is iterated in nondeterministic
hash-set order in Go, but each resolution reads only the original
`entities` slice and writes its own slot, so the order is immaterial.) -/
def resolveCoreferenceChains (entities : List Entity) (sentences : List String) :
    List Entity :=
  entities.map (fun e =>
    if isPronoun e.label then (resolvePronounEntity entities sentences e).getD e else e)

/- ### Keyword extraction (`extractKeywords`) -/

/-- The stop-word set of `isStopWord`. -/
def stopWords : List String :=
  ["the", "a", "an", "and", "or", "but", "in", "on", "at", "to", "for", "of", "with", "by"]

def isStopWord (w : String) : Bool :=
  stopWords.contains (strToLower w)

/-- `tok.Tag[0] == 'N'` — the tag's first byte; prose tags are non-empty
(on an empty tag the Go expression would panic; the model returns
`false`, a case none of the claims exercises). -/
def tagIsNoun (tag : String) : Bool :=
  match tag.toList with
  | c :: _ => c == 'N'
  | [] => false

/-- Candidate filter of the `wordScores`/`graphMap` initialisation loop:
`!isStopWord(tok.Text) && tok.Tag[0] == 'N'` (nouns only). -/
def isNounCandidate (t : Tok) : Bool :=
  !isStopWord t.text && tagIsNoun t.tag

/-- Map-key insertion: a repeated key re-initialises to the same value in
the source, leaving the key set unchanged. -/
def insertKey (acc : List String) (w : String) : List String :=
  if w ∈ acc then acc else acc ++ [w]

/-- The key set of `wordScores`/`graphMap` (the distinct candidate-token
texts, in first-occurrence order; Go's map stores them unordered). -/
def candidateWords (tokens : List Tok) : List String :=
  ((tokens.filter isNounCandidate).map Tok.text).foldl insertKey []

/-- Go `strings.Fields`: whitespace-separated non-empty fields. -/
def goFields (s : String) : List String :=
  (s.split (fun c => c.isWhitespace)).filter (fun w => w ≠ "")

/-- The co-occurrence events of one sentence's word list: for each
position `i` holding a `graphMap` key, each position
`j ∈ [max(0, i-4), min(len, i+4))`, `j ≠ i`, holding a key, yields the
event `(words[i], words[j])`.  Each event increments both
`graphMap[words[i]][words[j]]` and `graphMap[words[j]][words[i]]` by 1. -/
def sentenceCoocEvents (isCand : String → Bool) (words : List String) :
    List (String × String) :=
  words.enum.flatMap (fun p =>
    if isCand p.2 then
      (List.range' (p.1 - 4) (min (p.1 + 4) words.length - (p.1 - 4))).filterMap (fun j =>
        if j = p.1 then none
        else match words[j]? with
          | some cw => if isCand cw then some (p.2, cw) else none
          | none => none)
    else [])

/-- `graphMap[a][b]` after the build loop: the number of events `(a, b)`
plus events `(b, a)`, over all sentences (both directions are incremented
per event, so the weight function is symmetric). -/
def cooc (isCand : String → Bool) (sentences : List String) (a b : String) : ℚ :=
  (sentences.map (fun sent =>
    ((sentenceCoocEvents isCand (goFields sent)).count (a, b) : ℚ) +
    ((sentenceCoocEvents isCand (goFields sent)).count (b, a) : ℚ))).sum

/-- `sumEdgeWeights(graphMap[a])`: entries absent from the inner map have
weight 0 and add nothing, so summing over all keys is the map's entry
sum. -/
def sumEdgeWeights (candidates : List String) (w : String → String → ℚ) (a : String) : ℚ :=
  (candidates.map (fun b => w a b)).sum

/-- One TextRank update:
`(1 - d) + d * Σ_other weight(w, other) * score(other) / sumEdgeWeights(other)`
with damping `d = 0.85`; terms with zero weight vanish, matching the Go
iteration over the present entries only. -/
def textRankUpdate (candidates : List String) (w : String → String → ℚ)
    (scores : String → ℚ) : String → ℚ :=
  fun word =>
    (1 - 85/100) + (85/100) *
      (candidates.map (fun other =>
        w word other * scores other / sumEdgeWeights candidates w other)).sum

/-- The convergence measure: total absolute score change over the map's
keys. -/
def textRankDiff (candidates : List String) (old new : String → ℚ) : ℚ :=
  (candidates.map (fun word => |new word - old word|)).sum

/-- The TextRank iteration (`maxIterations = 50`, `epsilon = 0.0001`):
each round computes the new scores and the diff first, and breaks
*before* installing the new scores when `diff < epsilon`. -/
def textRankLoop (candidates : List String) (w : String → String → ℚ) :
    Nat → (String → ℚ) → (String → ℚ)
  | 0, scores => scores
  | n + 1, scores =>
    if textRankDiff candidates scores (textRankUpdate candidates w scores) < 1/10000 then
      scores
    else
      textRankLoop candidates w n (textRankUpdate candidates w scores)

/-- Initial scores: 1.0 on every map key (the value outside the key set
is never read; it is fixed at 0 here). -/
def initialScores (candidates : List String) : String → ℚ :=
  fun word => if word ∈ candidates then 1 else 0

/-- `technicalTermBoost = 1.5`. -/
def technicalTermBoost : ℚ := 3/2

/-- `bankingTermBoost = 1.5`. -/
def bankingTermBoost : ℚ := 3/2

/-- The technical boost list: the base list plus the `Enhanced
IT-specific keyword boosting` additions, in source order. -/
def technicalPatterns : List String :=
  ["api", "sdk", "rest", "graphql", "cloud",
   "docker", "kubernetes", "microservices",
   "database", "cache", "server", "client",
   "authentication", "security", "deployment"] ++
  ["microservice", "api", "event-driven", "serverless", "container",
   "kubernetes", "docker", "service-mesh", "cloud-native",
   "ci/cd", "pipeline", "git", "testing", "deployment", "monitoring",
   "logging", "tracing", "observability", "automation",
   "authentication", "authorization", "encryption", "security",
   "compliance", "oauth", "jwt", "certificate", "firewall",
   "database", "cache", "queue", "stream", "persistence",
   "replication", "sharding", "backup", "recovery", "migration",
   "rest", "graphql", "grpc", "websocket", "message-queue",
   "event-bus", "pubsub", "webhook", "protocol", "api-gateway",
   "scalability", "availability", "reliability", "performance",
   "latency", "throughput", "failover", "redundancy", "backup"]

/-- The banking boost list. -/
def bankingPatterns : List String :=
  ["account", "payment", "transfer", "loan", "credit",
   "mortgage", "investment", "risk", "compliance", "regulatory",
   "banking", "financial", "transaction", "balance", "interest",
   "deposit", "withdrawal", "card", "atm", "branch"]

def techMatch (word : String) : Bool :=
  technicalPatterns.any (fun term => strContains (strToLower word) term)

def bankMatch (word : String) : Bool :=
  bankingPatterns.any (fun term => strContains (strToLower word) term)

/-- The technical boost loop for one word: on a match, write
`score * technicalTermBoost`, where `score` is the map value captured at
the head of `for word, score := range wordScores`. -/
def afterTechBoost (score : ℚ) (word : String) : ℚ :=
  if techMatch word then score * technicalTermBoost else score

/-- Both boost loops for one word.  The banking loop also writes
`score * bankingTermBoost` computed from the same captured `score` — not
from the value the technical loop just wrote — so a word matching both
lists ends at `score * 1.5`, the banking write overwriting the identical
technical write. -/
def boostWord (score : ℚ) (word : String) : ℚ :=
  if bankMatch word then score * bankingTermBoost else afterTechBoost score word

/-- The boost pass over the whole score map (each key is updated
independently of the others). -/
def applyBoosts (scores : String → ℚ) : String → ℚ :=
  fun word => boostWord (scores word) word

/-- The keyword-construction loop: each map key found in the original
text (first occurrence offset) becomes a `Keyword`; keys not found are
discarded. -/
def keywordsOf (text : String) (candidates : List String) (scores : String → ℚ) :
    List Keyword :=
  candidates.filterMap (fun word =>
    match subIndex word.toList text.toList with
    | some startPos =>
      some { text := word, score := scores word, startPos := startPos,
             endPos := startPos + word.length, type := "keyword" }
    | none => none)

/-- The sort order of `sort.Slice(keywords, less(i, j) = Score i > Score j)`:
`a` may precede `b` when `b.score ≤ a.score`. -/
def kwLE (a b : Keyword) : Bool :=
  decide (b.score ≤ a.score)

/-- `NLPProcessor.extractKeywords`: candidates, co-occurrence graph,
TextRank, boosts, keyword construction, sort by score descending
(`sort.Slice` is an unstable comparator sort; `mergeSort` realises one
comparator-consistent order), and truncation to at most 10. -/
def extractKeywords (d : ProseDoc) : List Keyword :=
  let candidates := candidateWords d.tokens
  let w := cooc (fun x => candidates.contains x) d.sentences
  let scores := applyBoosts (textRankLoop candidates w 50 (initialScores candidates))
  let kws := keywordsOf d.text candidates scores
  let sorted := kws.mergeSort kwLE
  if sorted.length > 10 then sorted.take 10 else sorted

/- ### The NLP `Process` (composition root) -/

/-- `NLPProcessor.Process`, parameterised by the external prose parser
(`prose.NewDocument`, which may fail) and by the entity-pattern iteration
order: extract entities and relations, resolve coreference, extract
keywords, and assemble the output `Document`.  The `ID` and `Sentences`
fields of the struct literal are not set (Go zero values); `ProcessedAt`
(wall clock) is omitted per the conventions above. -/
def nlpProcess (prose : String → Option ProseDoc)
    (order : List (List String × String)) : Processor :=
  fun content metadata =>
    match prose content with
    | none => .error "prose error"
    | some d =>
      .ok { id := "",
            content := content,
            entities := resolveCoreferenceChains (extractEntities order d.text) d.sentences,
            relations := extractRelations d.tokens,
            keywords := extractKeywords d,
            metadata := metadata }

/- ### Claim C3: keyword boosting -/

/-- C3 counterexample: `apicard` contains the technical term `api` and
the banking term `card`; its boosted score is `1 * 1.5` (the banking
write recomputes from the captured pre-boost score, overwriting the
identical technical write), not the stacked `1 * 1.5 * 1.5` the claim
asserts. -/
theorem keyword_boost_stacking_counterexample :
    techMatch "apicard" = true ∧ bankMatch "apicard" = true ∧
    boostWord 1 "apicard" = 1 * bankingTermBoost ∧
    ¬ boostWord 1 "apicard" = 1 * technicalTermBoost * bankingTermBoost := by
  refine ⟨by decide, by decide, rfl, ?_⟩
  intro h
  have h2 : (1 : ℚ) * bankingTermBoost = 1 * technicalTermBoost * bankingTermBoost :=
    (rfl : boostWord 1 "apicard" = 1 * bankingTermBoost).symm.trans h
  rw [technicalTermBoost, bankingTermBoost] at h2
  norm_num at h2

/-- C3 amended: after TextRank convergence, a word matching only the
technical list is multiplied by 1.5, a word matching the banking list is
multiplied by 1.5 — computed from the pre-boost score, so a word matching
both lists also ends at 1.5× its converged score (the boosts do not
stack) — and a word matching neither list keeps its score. -/
theorem keyword_boost_overwrite :
    (∀ (scores : String → ℚ) (word : String),
      bankMatch word = false → techMatch word = true →
      applyBoosts scores word = scores word * technicalTermBoost) ∧
    (∀ (scores : String → ℚ) (word : String),
      bankMatch word = true →
      applyBoosts scores word = scores word * bankingTermBoost) ∧
    (∀ (scores : String → ℚ) (word : String),
      bankMatch word = false → techMatch word = false →
      applyBoosts scores word = scores word) := by
  refine ⟨?_, ?_, ?_⟩
  · intro scores word hb ht
    simp [applyBoosts, boostWord, afterTechBoost, hb, ht]
  · intro scores word hb
    simp [applyBoosts, boostWord, hb]
  · intro scores word hb ht
    simp [applyBoosts, boostWord, afterTechBoost, hb, ht]

theorem keyword_boost_overwrite_witness :
    applyBoosts (fun _ => 2) "api" = (fun _ => (2 : ℚ)) "api" * technicalTermBoost ∧
    applyBoosts (fun _ => 2) "apicard" = (fun _ => (2 : ℚ)) "apicard" * bankingTermBoost ∧
    applyBoosts (fun _ => 2) "zzz" = (fun _ => (2 : ℚ)) "zzz" :=
  ⟨keyword_boost_overwrite.1 (fun _ => 2) "api" (by decide) (by decide),
   keyword_boost_overwrite.2.1 (fun _ => 2) "apicard" (by decide),
   keyword_boost_overwrite.2.2 (fun _ => 2) "zzz" (by decide) (by decide)⟩

/- ### Claim C4: coreference candidate selection -/

/-- A concrete extracted entity `Docker`. -/
def dockerEnt : Entity := { label := "Docker", type := "TECHNOLOGY", confidence := 9/10 }

/-- A concrete pronoun entity `It`. -/
def itEnt : Entity := { label := "It", type := "TECHNOLOGY", confidence := 9/10 }

/-- The candidate test applied to each entity of the inner scan loop:
not itself a pronoun, and agreeing with the pronoun. -/
def corefCandidate (lbl : String) (x : Entity) : Bool :=
  !isPronoun x.label && canBeCoreferent lbl x.label

/-- C4 counterexample: the pronoun `It` sits in sentence 0 (`It is
fast.`), `Docker` occurs only in the later sentence 1, yet `Docker` is
chosen as the antecedent — the inner scan loop ranges over the whole
entity slice with no sentence-membership filter, so entities of other
(even later) sentences are candidates, refuting the claim. -/
theorem coref_candidate_window_counterexample :
    resolveCoreferenceChains [dockerEnt, itEnt] ["It is fast.", "Docker is great."] =
      [dockerEnt, dockerEnt] ∧
    strContains "It is fast." "Docker" = false ∧
    findContainingSentence ["It is fast.", "Docker is great."] "It" = some (0, 0) := by
  refine ⟨rfl, by decide, by decide⟩

theorem corefScanStep_eq (lbl : String) (d : Nat) (acc : Nat × Option Entity) (ent : Entity) :
    corefScanStep lbl d acc ent =
      if corefCandidate lbl ent = true ∧ d < acc.1 then (d, some ent) else acc := by
  unfold corefScanStep corefCandidate
  by_cases h1 : isPronoun ent.label <;> by_cases h2 : canBeCoreferent lbl ent.label <;>
    by_cases h3 : d < acc.1 <;> simp [h1, h2, h3]

theorem coref_inner_fold (lbl : String) (d : Nat) (entities : List Entity) :
    ∀ (D : Nat) (b : Option Entity),
      entities.foldl (corefScanStep lbl d) (D, b) =
        if d < D then
          match entities.find? (corefCandidate lbl) with
          | some e => (d, some e)
          | none => (D, b)
        else (D, b) := by
  induction entities with
  | nil =>
    intro D b
    by_cases hd : d < D <;> simp [hd]
  | cons x xs ih =>
    intro D b
    rw [List.foldl_cons, corefScanStep_eq]
    by_cases hc : corefCandidate lbl x
    · rw [List.find?_cons_of_pos _ hc]
      by_cases hd : d < D
      · rw [if_pos ⟨hc, hd⟩, ih d (some x)]
        simp [hd]
      · rw [if_neg (fun h => hd h.2), ih D b]
        simp [hd]
    · rw [List.find?_cons_of_neg _ (by simp [hc])]
      rw [if_neg (fun h => (by simp [hc] at h : False))]
      · exact ih D b

theorem coref_outer_found (lbl : String) (pos cs : Nat) (entities : List Entity)
    (e : Entity) :
    ∀ idxs : List Nat, (∀ i ∈ idxs, i < cs) →
      idxs.foldl
        (fun acc i => entities.foldl (corefScanStep lbl (pos + (cs - i) * 100)) acc)
        (pos, some e) = (pos, some e) := by
  intro idxs
  induction idxs with
  | nil => intro _; rfl
  | cons i is ih =>
    intro h
    rw [List.foldl_cons, coref_inner_fold]
    have hi : i < cs := h i (List.mem_cons_self i is)
    have : ¬ (pos + (cs - i) * 100 < pos) := by omega
    rw [if_neg this]
    exact ih (fun j hj => h j (List.mem_cons_of_mem i hj))

theorem coref_outer_none (lbl : String) (pos cs : Nat) (entities : List Entity)
    (hfind : entities.find? (corefCandidate lbl) = none) :
    ∀ (idxs : List Nat) (D : Nat) (b : Option Entity),
      idxs.foldl
        (fun acc i => entities.foldl (corefScanStep lbl (pos + (cs - i) * 100)) acc)
        (D, b) = (D, b) := by
  intro idxs
  induction idxs with
  | nil => intro D b; rfl
  | cons i is ih =>
    intro D b
    rw [List.foldl_cons, coref_inner_fold, hfind]
    by_cases hd : pos + (cs - i) * 100 < D <;> simp [hd] <;> exact ih D b

theorem windowIdxs_split (cs : Nat) :
    windowIdxs cs =
      cs :: ([1, 2, 3].filterMap (fun k => if k ≤ cs then some (cs - k) else none)) := by
  unfold windowIdxs
  have h4 : List.range 4 = [0, 1, 2, 3] := rfl
  rw [h4, List.filterMap_cons]
  simp

theorem windowIdxs_tail_lt (cs : Nat) :
    ∀ i ∈ [1, 2, 3].filterMap (fun k => if k ≤ cs then some (cs - k) else none), i < cs := by
  intro i hi
  rcases List.mem_filterMap.mp hi with ⟨k, hk, hik⟩
  by_cases hkc : k ≤ cs
  · rw [if_pos hkc] at hik
    cases hik
    simp at hk
    omega
  · rw [if_neg hkc] at hik
    cases hik

/-- C4 amended: when the pronoun's containing sentence is found (at
character offset below the 1000000 sentinel), the chosen antecedent is
simply the first entity of the extracted entity list, in list order, that
is a non-pronoun satisfying the agreement heuristic — the inner loop
applies no sentence filter, so candidates come from the whole document
(later sentences included), and the distance formula is degenerate: every
candidate attains its minimum `pos` at the window round `i = cs`, so the
first-found candidate wins and sentence gaps never matter. -/
theorem coref_first_agreeing_entity_wins :
    ∀ (entities : List Entity) (sentences : List String) (pronoun : Entity) (cs pos : Nat),
      findContainingSentence sentences pronoun.label = some (cs, pos) →
      pos < 1000000 →
      resolvePronounEntity entities sentences pronoun =
        entities.find? (corefCandidate pronoun.label) := by
  intro entities sentences pronoun cs pos hfind hpos
  simp only [resolvePronounEntity, hfind]
  unfold corefScan
  rw [windowIdxs_split, List.foldl_cons, coref_inner_fold]
  have hz : pos + (cs - cs) * 100 = pos := by omega
  rw [hz, if_pos hpos]
  cases hfq : entities.find? (corefCandidate pronoun.label) with
  | some e =>
    rw [coref_outer_found pronoun.label pos cs entities e _ (windowIdxs_tail_lt cs)]
  | none =>
    rw [coref_outer_none pronoun.label pos cs entities hfq]

theorem coref_first_agreeing_entity_wins_witness :
    resolvePronounEntity [dockerEnt, itEnt] ["It is fast.", "Docker is great."] itEnt =
      [dockerEnt, itEnt].find? (corefCandidate itEnt.label) :=
  coref_first_agreeing_entity_wins [dockerEnt, itEnt] ["It is fast.", "Docker is great."]
    itEnt 0 0 (by decide) (by decide)

/- ### Claim C5: the search windows of `findNearestEntity` -/

/-- A filler token matching no domain-noun pattern. -/
def wTok : Tok := { text := "w", tag := "X" }

/-- A token matching the domain-noun pattern `Database`. -/
def dbTok : Tok := { text := "Database", tag := "NN" }

/-- Six tokens with the only domain noun at index 5. -/
def toksC5 : List Tok :=
  [{ text := "deploys", tag := "VBZ" }, wTok, wTok, wTok, wTok, dbTok]

/-- The mirror image: the only domain noun at index 0, verb at index 5. -/
def toksC5b : List Tok :=
  [dbTok, wTok, wTok, wTok, wTok, { text := "deploys", tag := "VBZ" }]

/-- C5 counterexample: the forward scan runs `i` from `pos+1` while
`i < min(pos+5, len)`, reaching only `pos+4`: with the sole matching
token at index `pos+5 = 5`, the forward search from position 0 finds
nothing, though the claim says positions up to `i+5` are searched.  The
backward search does reach `pos-5` (third conjunct). -/
theorem forward_window_counterexample :
    tokenMatchesPattern dbTok = true ∧
    findNearestEntity toksC5 0 1 = none ∧
    findNearestEntity toksC5b 5 (-1) = some dbTok := by
  refine ⟨by decide, by decide, by decide⟩

theorem scanIndices_fwd (len pos : Nat) :
    scanIndices len pos 1 = List.range' (pos + 1) (min (pos + 5) len - (pos + 1)) := by
  unfold scanIndices
  rw [if_pos]
  norm_num

theorem scanIndices_bwd (len pos : Nat) :
    scanIndices len pos (-1) = (List.range (pos - (pos - 5))).map (fun k => pos - 1 - k) := by
  unfold scanIndices
  rw [if_neg]
  norm_num

theorem map_range_reverse (e : Nat) :
    ∀ cnt : Nat, (List.range cnt).map (fun k => e + cnt - 1 - k) = (List.range' e cnt).reverse := by
  intro cnt
  induction cnt generalizing e with
  | zero => rfl
  | succ n ih =>
    rw [List.range_succ, List.map_append, List.range'_succ, List.reverse_cons]
    congr 1
    · rw [← ih (e + 1)]
      apply List.map_congr_left
      intro k _
      omega
    · have he : e + (n + 1) - 1 - n = e := by omega
      simp [he]

theorem findSome?_decomp {α β : Type} {f : α → Option β} :
    ∀ {L : List α} {b : β}, L.findSome? f = some b →
      ∃ L1 a L2, L = L1 ++ a :: L2 ∧ f a = some b ∧ ∀ x ∈ L1, f x = none := by
  intro L
  induction L with
  | nil => intro b h; simp [List.findSome?] at h
  | cons x xs ih =>
    intro b h
    cases hx : f x with
    | some b' =>
      refine ⟨[], x, xs, rfl, ?_, by simp⟩
      rw [hx]
      rw [List.findSome?] at h
      rw [hx] at h
      exact h
    | none =>
      rw [List.findSome?, hx] at h
      rcases ih h with ⟨L1, a, L2, hdec, hfa, hnone⟩
      refine ⟨x :: L1, a, L2, by rw [hdec, List.cons_append], hfa, ?_⟩
      intro y hy
      rcases List.mem_cons.mp hy with hy1 | hy1
      · rw [hy1]; exact hx
      · exact hnone y hy1

theorem range'_decomp {s m a : Nat} {L1 L2 : List Nat}
    (h : List.range' s m = L1 ++ a :: L2) :
    L1 = List.range' s L1.length ∧ a = s + L1.length ∧
      L2 = List.range' (s + L1.length + 1) (m - L1.length - 1) ∧
      L1.length + 1 + L2.length = m := by
  have hlen : m = L1.length + 1 + L2.length := by
    have := congrArg List.length h
    simp [List.length_range'] at this
    omega
  have hk : L1.length ≤ m := by omega
  have hsplit : List.range' s m =
      List.range' s L1.length ++ List.range' (s + L1.length) (m - L1.length) := by
    have happ := List.range'_append s L1.length (m - L1.length) 1
    rw [one_mul] at happ
    have hm2 : m - L1.length + L1.length = m := by omega
    rw [hm2] at happ
    exact happ.symm
  have htake : L1 = List.range' s L1.length := by
    have hta : List.take L1.length (List.range' s m) = L1 := by
      rw [h]; exact List.take_left L1 _
    have htb : List.take L1.length (List.range' s m) = List.range' s L1.length := by
      rw [hsplit]
      have := List.take_left (List.range' s L1.length) (List.range' (s + L1.length) (m - L1.length))
      rwa [List.length_range'] at this
    exact hta.symm.trans htb
  have hdrop : a :: L2 = List.range' (s + L1.length) (m - L1.length) := by
    have hta : List.drop L1.length (List.range' s m) = a :: L2 := by
      rw [h]; exact List.drop_left L1 _
    have htb : List.drop L1.length (List.range' s m) =
        List.range' (s + L1.length) (m - L1.length) := by
      rw [hsplit]
      have := List.drop_left (List.range' s L1.length) (List.range' (s + L1.length) (m - L1.length))
      rwa [List.length_range'] at this
    exact hta.symm.trans htb
  have hm1 : m - L1.length = (m - L1.length - 1) + 1 := by omega
  rw [hm1, List.range'_succ] at hdrop
  have ha : a = s + L1.length := (List.cons.injEq _ _ _ _ ▸ hdrop).1
  have hL2 : L2 = List.range' (s + L1.length + 1) (m - L1.length - 1) :=
    (List.cons.injEq _ _ _ _ ▸ hdrop).2
  exact ⟨htake, ha, hL2, by omega⟩

/-- The per-index test of the `findNearestEntity` scan. -/
def nearestProbe (tokens : List Tok) (i : Nat) : Option Tok :=
  match tokens[i]? with
  | some t => if tokenMatchesPattern t then some t else none
  | none => none

theorem nearestProbe_some {tokens : List Tok} {i : Nat} {t : Tok}
    (h : nearestProbe tokens i = some t) :
    tokens[i]? = some t ∧ tokenMatchesPattern t = true := by
  unfold nearestProbe at h
  cases hg : tokens[i]? with
  | none =>
    simp only [hg] at h
    exact Option.noConfusion h
  | some u =>
    simp only [hg] at h
    by_cases hm : tokenMatchesPattern u
    · rw [if_pos hm] at h
      cases h
      exact ⟨rfl, hm⟩
    · rw [if_neg hm] at h
      exact Option.noConfusion h

theorem nearestProbe_none {tokens : List Tok} {i : Nat} {u : Tok}
    (h : nearestProbe tokens i = none) (hg : tokens[i]? = some u) :
    tokenMatchesPattern u = false := by
  unfold nearestProbe at h
  simp only [hg] at h
  by_cases hm : tokenMatchesPattern u
  · rw [if_pos hm] at h; cases h
  · exact eq_false_of_ne_true hm

theorem findNearestEntity_eq_probe (tokens : List Tok) (pos : Nat) (direction : Int) :
    findNearestEntity tokens pos direction =
      (scanIndices tokens.length pos direction).findSome? (nearestProbe tokens) := rfl

theorem findNearestEntity_fwd_sound {tokens : List Tok} {pos : Nat} {t : Tok}
    (h : findNearestEntity tokens pos 1 = some t) :
    ∃ i, pos + 1 ≤ i ∧ i ≤ pos + 4 ∧ i < tokens.length ∧ tokens[i]? = some t ∧
      tokenMatchesPattern t = true ∧
      ∀ j, pos + 1 ≤ j → j < i → ∀ u, tokens[j]? = some u →
        tokenMatchesPattern u = false := by
  rw [findNearestEntity_eq_probe, scanIndices_fwd] at h
  rcases findSome?_decomp h with ⟨L1, a, L2, hdec, hfa, hnone⟩
  rcases range'_decomp hdec with ⟨hL1, ha, _, hlen⟩
  obtain ⟨hga, hma⟩ := nearestProbe_some hfa
  have hmin1 := Nat.min_le_left (pos + 5) tokens.length
  have hmin2 := Nat.min_le_right (pos + 5) tokens.length
  refine ⟨a, by omega, by omega, by omega, hga, hma, ?_⟩
  intro j hj1 hj2 u hgu
  refine nearestProbe_none (hnone j ?_) hgu
  rw [hL1, List.mem_range'_1]
  omega

theorem findNearestEntity_fwd_complete {tokens : List Tok} {pos i : Nat} {t : Tok}
    (hi1 : pos + 1 ≤ i) (hi2 : i ≤ pos + 4) (hg : tokens[i]? = some t)
    (hm : tokenMatchesPattern t = true) :
    (findNearestEntity tokens pos 1).isSome = true := by
  cases hr : findNearestEntity tokens pos 1 with
  | some u => rfl
  | none =>
    exfalso
    rw [findNearestEntity_eq_probe, scanIndices_fwd] at hr
    have hall := List.findSome?_eq_none.mp hr
    have hil : i < tokens.length := by
      rcases List.getElem?_eq_some.mp hg with ⟨hlt, _⟩
      exact hlt
    have hmin1 := Nat.min_le_left (pos + 5) tokens.length
    have hmin2 := Nat.min_le_right (pos + 5) tokens.length
    have himem : i ∈ List.range' (pos + 1) (min (pos + 5) tokens.length - (pos + 1)) := by
      rw [List.mem_range'_1]
      constructor
      · omega
      · have : i < min (pos + 5) tokens.length := by
          rw [Nat.lt_min]
          omega
        omega
    have hpi := hall i himem
    unfold nearestProbe at hpi
    simp only [hg] at hpi
    rw [if_pos hm] at hpi
    exact Option.noConfusion hpi

theorem scanIndices_bwd_reverse (len pos : Nat) :
    scanIndices len pos (-1) =
      (List.range' (pos - 5) (pos - (pos - 5))).reverse := by
  rw [scanIndices_bwd]
  have hcong : (List.range (pos - (pos - 5))).map (fun k => pos - 1 - k) =
      (List.range (pos - (pos - 5))).map
        (fun k => (pos - 5) + (pos - (pos - 5)) - 1 - k) := by
    apply List.map_congr_left
    intro k hk
    rw [List.mem_range] at hk
    omega
  rw [hcong, map_range_reverse]

theorem findNearestEntity_bwd_sound {tokens : List Tok} {pos : Nat} {t : Tok}
    (h : findNearestEntity tokens pos (-1) = some t) :
    ∃ i, pos - 5 ≤ i ∧ i < pos ∧ tokens[i]? = some t ∧
      tokenMatchesPattern t = true ∧
      ∀ j, i < j → j < pos → ∀ u, tokens[j]? = some u →
        tokenMatchesPattern u = false := by
  rw [findNearestEntity_eq_probe, scanIndices_bwd_reverse] at h
  rcases findSome?_decomp h with ⟨L1, a, L2, hdec, hfa, hnone⟩
  have hrev : List.range' (pos - 5) (pos - (pos - 5)) = L2.reverse ++ a :: L1.reverse := by
    have hr := congrArg List.reverse hdec
    rw [List.reverse_reverse] at hr
    rw [hr]
    simp [List.reverse_append]
  rcases range'_decomp hrev with ⟨_, ha, hL1r, hlen⟩
  obtain ⟨hga, hma⟩ := nearestProbe_some hfa
  rw [List.length_reverse] at ha hL1r hlen
  refine ⟨a, by omega, by omega, hga, hma, ?_⟩
  intro j hj1 hj2 u hgu
  refine nearestProbe_none (hnone j ?_) hgu
  rw [← List.mem_reverse, hL1r, List.mem_range'_1]
  omega

theorem findNearestEntity_bwd_complete {tokens : List Tok} {pos i : Nat} {t : Tok}
    (hi1 : pos - 5 ≤ i) (hi2 : i < pos) (hg : tokens[i]? = some t)
    (hm : tokenMatchesPattern t = true) :
    (findNearestEntity tokens pos (-1)).isSome = true := by
  cases hr : findNearestEntity tokens pos (-1) with
  | some u => rfl
  | none =>
    exfalso
    rw [findNearestEntity_eq_probe, scanIndices_bwd_reverse] at hr
    have hall := List.findSome?_eq_none.mp hr
    have himem : i ∈ (List.range' (pos - 5) (pos - (pos - 5))).reverse := by
      rw [List.mem_reverse, List.mem_range'_1]
      omega
    have hpi := hall i himem
    unfold nearestProbe at hpi
    simp only [hg] at hpi
    rw [if_pos hm] at hpi
    exact Option.noConfusion hpi

theorem extractRelations_confidence (tokens : List Tok) :
    ∀ r ∈ extractRelations tokens, r.confidence = 85/100 := by
  intro r hr
  rcases List.mem_append.mp hr with hr1 | hr1
  · rcases List.mem_filterMap.mp hr1 with ⟨p, _, hf⟩
    split at hf
    · split at hf
      · split at hf
        · cases hf; rfl
        · exact Option.noConfusion hf
      · exact Option.noConfusion hf
    · exact Option.noConfusion hf
  · rcases List.mem_filterMap.mp hr1 with ⟨p, _, hf⟩
    split at hf
    · split at hf
      · split at hf
        · cases hf; rfl
        · exact Option.noConfusion hf
      · exact Option.noConfusion hf
    · exact Option.noConfusion hf

/-- C5 amended: at every recognised verb token the extractor searches up
to 5 tokens backward (positions `i-1` through `i-5`) for the nearest
domain-noun token, but only up to 4 tokens forward (positions `i+1`
through `i+4` — the forward loop bound `i < min(pos+5, len)` excludes
`i+5`); the returned token is the nearest match in scan order (no closer
position matches), a match within those windows is always found, and
every emitted relationship carries confidence exactly 0.85. -/
theorem nearest_entity_window_bounds :
    (∀ (tokens : List Tok) (pos : Nat) (t : Tok),
      findNearestEntity tokens pos 1 = some t →
      ∃ i, pos + 1 ≤ i ∧ i ≤ pos + 4 ∧ i < tokens.length ∧ tokens[i]? = some t ∧
        tokenMatchesPattern t = true ∧
        ∀ j, pos + 1 ≤ j → j < i → ∀ u, tokens[j]? = some u →
          tokenMatchesPattern u = false) ∧
    (∀ (tokens : List Tok) (pos i : Nat) (t : Tok),
      pos + 1 ≤ i → i ≤ pos + 4 → tokens[i]? = some t →
      tokenMatchesPattern t = true → (findNearestEntity tokens pos 1).isSome = true) ∧
    (∀ (tokens : List Tok) (pos : Nat) (t : Tok),
      findNearestEntity tokens pos (-1) = some t →
      ∃ i, pos - 5 ≤ i ∧ i < pos ∧ tokens[i]? = some t ∧
        tokenMatchesPattern t = true ∧
        ∀ j, i < j → j < pos → ∀ u, tokens[j]? = some u →
          tokenMatchesPattern u = false) ∧
    (∀ (tokens : List Tok) (pos i : Nat) (t : Tok),
      pos - 5 ≤ i → i < pos → tokens[i]? = some t →
      tokenMatchesPattern t = true → (findNearestEntity tokens pos (-1)).isSome = true) ∧
    (∀ (tokens : List Tok), ∀ r ∈ extractRelations tokens, r.confidence = 85/100) :=
  ⟨fun _ _ _ h => findNearestEntity_fwd_sound h,
   fun _ _ _ _ h1 h2 h3 h4 => findNearestEntity_fwd_complete h1 h2 h3 h4,
   fun _ _ _ h => findNearestEntity_bwd_sound h,
   fun _ _ _ _ h1 h2 h3 h4 => findNearestEntity_bwd_complete h1 h2 h3 h4,
   extractRelations_confidence⟩

/-- Tokens producing one relation per pass: subject `Server`, verb
`deploys`, object `Database`. -/
def toksR : List Tok :=
  [{ text := "Server", tag := "NN" }, { text := "deploys", tag := "VBZ" }, dbTok]

/-- The pass-1 relation extracted from `toksR`. -/
def relC5a : Relationship :=
  { type := "DEPLOYS_TO", fromLabel := "Server", toLabel := "Database", confidence := 85/100 }

/-- The pass-2 relation extracted from `toksR`. -/
def relC5b : Relationship :=
  { type := "DEPLOYS", fromLabel := "Server", toLabel := "Database", confidence := 85/100 }

theorem nearest_entity_window_bounds_witness :
    (∃ i, 1 + 1 ≤ i ∧ i ≤ 1 + 4 ∧ i < toksR.length ∧ toksR[i]? = some dbTok ∧
      tokenMatchesPattern dbTok = true ∧
      ∀ j, 1 + 1 ≤ j → j < i → ∀ u, toksR[j]? = some u →
        tokenMatchesPattern u = false) ∧
    (findNearestEntity toksR 1 1).isSome = true ∧
    (∃ i, 5 - 5 ≤ i ∧ i < 5 ∧ toksC5b[i]? = some dbTok ∧
      tokenMatchesPattern dbTok = true ∧
      ∀ j, i < j → j < 5 → ∀ u, toksC5b[j]? = some u →
        tokenMatchesPattern u = false) ∧
    (findNearestEntity toksC5b 5 (-1)).isSome = true ∧
    relC5a.confidence = 85/100 :=
  ⟨nearest_entity_window_bounds.1 toksR 1 dbTok (by decide),
   nearest_entity_window_bounds.2.1 toksR 1 2 dbTok (by decide) (by decide) (by decide)
     (by decide),
   nearest_entity_window_bounds.2.2.1 toksC5b 5 dbTok (by decide),
   nearest_entity_window_bounds.2.2.2.1 toksC5b 5 0 dbTok (by decide) (by decide) (by decide)
     (by decide),
   nearest_entity_window_bounds.2.2.2.2 toksR relC5a (List.mem_cons_self relC5a [relC5b])⟩

/- ### Claim C8: keyword ranking bounds -/

theorem length_filterMap_of_isSome {α β : Type} {f : α → Option β} :
    ∀ {l : List α}, (∀ x ∈ l, (f x).isSome = true) → (l.filterMap f).length = l.length := by
  intro l
  induction l with
  | nil => intro _; rfl
  | cons x xs ih =>
    intro h
    cases hx : f x with
    | none =>
      have := h x (List.mem_cons_self x xs)
      rw [hx] at this
      exact Bool.noConfusion this
    | some b =>
      simp only [List.filterMap_cons, hx, List.length_cons]
      rw [ih (fun y hy => h y (List.mem_cons_of_mem x hy))]

theorem kwLE_trans : ∀ a b c : Keyword, kwLE a b = true → kwLE b c = true → kwLE a c = true := by
  intro a b c hab hbc
  simp only [kwLE, decide_eq_true_eq] at *
  exact le_trans hbc hab

theorem kwLE_total : ∀ a b : Keyword, (kwLE a b || kwLE b a) = true := by
  intro a b
  simp only [kwLE, Bool.or_eq_true, decide_eq_true_eq]
  exact le_total b.score a.score

/-- C8: `Rank` never returns more than 10 keywords, the returned keywords
are sorted in descending score order, and when the distinct non-stopword
noun candidates number fewer than 10 (and, as prose tokenisation
guarantees, each candidate occurs in the document text) the result has
exactly one keyword per distinct candidate. -/
theorem rank_keyword_bounds :
    (∀ d : ProseDoc, (extractKeywords d).length ≤ 10) ∧
    (∀ d : ProseDoc, (extractKeywords d).Pairwise (fun a b => b.score ≤ a.score)) ∧
    (∀ d : ProseDoc,
      (candidateWords d.tokens).length < 10 →
      (∀ w ∈ candidateWords d.tokens, (subIndex w.toList d.text.toList).isSome = true) →
      (extractKeywords d).length = (candidateWords d.tokens).length) := by
  refine ⟨?_, ?_, ?_⟩
  · intro d
    simp only [extractKeywords]
    split
    · have := List.length_take_le 10
        ((keywordsOf d.text (candidateWords d.tokens)
          (applyBoosts (textRankLoop (candidateWords d.tokens)
            (cooc (fun x => (candidateWords d.tokens).contains x) d.sentences) 50
            (initialScores (candidateWords d.tokens))))).mergeSort kwLE)
      omega
    · omega
  · intro d
    simp only [extractKeywords]
    have hp : ∀ l : List Keyword, (l.mergeSort kwLE).Pairwise (fun a b => b.score ≤ a.score) := by
      intro l
      have := List.sorted_mergeSort kwLE_trans kwLE_total l
      exact this.imp (fun h => by simpa [kwLE, decide_eq_true_eq] using h)
    split
    · exact (hp _).sublist (List.take_sublist _ _)
    · exact hp _
  · intro d hlt hocc
    simp only [extractKeywords]
    have hkw : (keywordsOf d.text (candidateWords d.tokens)
        (applyBoosts (textRankLoop (candidateWords d.tokens)
          (cooc (fun x => (candidateWords d.tokens).contains x) d.sentences) 50
          (initialScores (candidateWords d.tokens))))).length =
        (candidateWords d.tokens).length := by
      unfold keywordsOf
      apply length_filterMap_of_isSome
      intro w hw
      cases hsx : subIndex w.toList d.text.toList with
      | none =>
        have := hocc w hw
        rw [hsx] at this
        exact Bool.noConfusion this
      | some p => simp [hsx]
    rw [List.length_mergeSort] at *
    split
    · omega
    · rw [List.length_mergeSort, hkw]

/-- A two-candidate prose document for the C8 witness. -/
def proseC8 : ProseDoc :=
  { text := "Docker Cloud",
    tokens := [{ text := "Docker", tag := "NNP" }, { text := "Cloud", tag := "NNP" }],
    sentences := ["Docker Cloud"] }

theorem rank_keyword_bounds_witness :
    (extractKeywords proseC8).length ≤ 10 ∧
    (extractKeywords proseC8).Pairwise (fun a b => b.score ≤ a.score) ∧
    (extractKeywords proseC8).length = (candidateWords proseC8.tokens).length :=
  ⟨rank_keyword_bounds.1 proseC8,
   rank_keyword_bounds.2.1 proseC8,
   rank_keyword_bounds.2.2 proseC8 (by decide) (by decide)⟩

/- ### Claim C9: extraction determinism -/

/-- C9 counterexample: the entity loop iterates the `entityPatterns` Go
map, whose iteration order is nondeterministic; two legitimate iteration
orders of the same table (the literal order and its reverse) produce the
extracted entity list in different orders for the text `docker java`
(`[docker:TECHNOLOGY, java:LANGUAGE, docker:LIBRARY, docker:CLOUD,
java:LANGUAGE]` versus its pattern-group reversal), so two runs of the
extractor need not produce identical lists in the same order. -/
theorem extraction_order_dependent_counterexample :
    entityPatternsTable.reverse.Perm entityPatternsTable ∧
    ¬ ((extractEntities entityPatternsTable "docker java").map (fun e => (e.label, e.type)) =
       (extractEntities entityPatternsTable.reverse "docker java").map
         (fun e => (e.label, e.type))) :=
  ⟨List.reverse_perm entityPatternsTable, by decide⟩

/-- C9 amended: across any two iteration orders of the pattern table the
extracted entity lists are permutations of each other (same multiset,
order not fixed), and the relationship lists — produced by iterating the
token slice, not the pattern map — are identical. -/
theorem extraction_perm_invariant :
    ∀ (d : ProseDoc) (o1 o2 : List (List String × String)), o1.Perm o2 →
      (extractEntitiesAndRelations o1 d).1.Perm (extractEntitiesAndRelations o2 d).1 ∧
      (extractEntitiesAndRelations o1 d).2 = (extractEntitiesAndRelations o2 d).2 := by
  intro d o1 o2 hp
  exact ⟨List.Perm.flatMap_right _ hp, rfl⟩

theorem extraction_perm_invariant_witness :
    (extractEntitiesAndRelations entityPatternsTable
        { text := "docker java", tokens := [], sentences := [] }).1.Perm
      (extractEntitiesAndRelations entityPatternsTable.reverse
        { text := "docker java", tokens := [], sentences := [] }).1 ∧
    (extractEntitiesAndRelations entityPatternsTable
        { text := "docker java", tokens := [], sentences := [] }).2 =
      (extractEntitiesAndRelations entityPatternsTable.reverse
        { text := "docker java", tokens := [], sentences := [] }).2 :=
  extraction_perm_invariant { text := "docker java", tokens := [], sentences := [] }
    entityPatternsTable entityPatternsTable.reverse
    (List.reverse_perm entityPatternsTable).symm

/- ### Claim C10: `Process` replaces the document wholesale, erasing its ID -/

theorem runStages_ok_stage {q : Processor} {qs : List Processor} {doc d' : Document}
    (h : runStages (q :: qs) doc = .ok d') :
    ∃ p ∈ q :: qs, ∃ c m, p c m = .ok d' := by
  induction qs generalizing q doc with
  | nil =>
    simp only [runStages] at h
    cases hq : q doc.content doc.metadata with
    | error e => rw [hq] at h; exact Except.noConfusion h
    | ok d'' =>
      simp only [hq, runStages] at h
      cases h
      exact ⟨q, List.mem_cons_self q [], doc.content, doc.metadata, hq⟩
  | cons r rs ih =>
    simp only [runStages] at h
    cases hq : q doc.content doc.metadata with
    | error e => rw [hq] at h; exact Except.noConfusion h
    | ok d'' =>
      simp only [hq] at h
      rcases ih h with ⟨p, hp, c, m, hpc⟩
      exact ⟨p, List.mem_cons_of_mem q hp, c, m, hpc⟩

/-- C10: the NLP processor constructs its output `Document` without
setting the `ID` field (Go zero value, the empty string), and a
successful `Process` through stages that never set the ID replaces every
field of `doc` wholesale with the final stage's output — so afterwards
`doc.ID` is the empty string, whatever it was before. -/
theorem process_replaces_id :
    (∀ (prose : String → Option ProseDoc) (order : List (List String × String))
      (c : String) (m : List (String × String)) (d : Document),
      nlpProcess prose order c m = .ok d → d.id = "") ∧
    (∀ (procs : List Processor) (doc d' : Document),
      (∀ p ∈ procs, ∀ c m d'', p c m = .ok d'' → d''.id = "") →
      process procs doc = .ok d' →
      processUpd procs doc = (d', none) ∧ d'.id = "") := by
  constructor
  · intro prose order c m d h
    unfold nlpProcess at h
    cases hp : prose c with
    | none =>
      rw [hp] at h
      exact Except.noConfusion h
    | some pd =>
      simp only [hp] at h
      cases h
      rfl
  · intro procs doc d' hall h
    refine ⟨by unfold processUpd; rw [h], ?_⟩
    rcases procs with _ | ⟨q, qs⟩
    · unfold process at h
      simp at h
    · unfold process at h
      rw [if_neg (by simp)] at h
      rcases runStages_ok_stage h with ⟨p, hp, c, m, hpc⟩
      exact hall p hp c m d' hpc

/-- A concrete prose-parser output used in the C10 witness: it parses any
text into a document with no tokens and no sentences. -/
def proseEmpty : String → Option ProseDoc :=
  fun s => some { text := s, tokens := [], sentences := [] }

/-- The document the modelled NLP processor produces from content `x`
under `proseEmpty`: every extraction is empty and the ID is the zero
value. -/
def nlpOutX : Document :=
  { id := "", content := "x", entities := [], relations := [], keywords := [],
    metadata := [] }

theorem extractKeywords_proseEmpty_x :
    extractKeywords { text := "x", tokens := [], sentences := [] } = [] := by
  simp [extractKeywords, candidateWords, keywordsOf]

theorem nlpProcess_proseEmpty_x :
    nlpProcess proseEmpty entityPatternsTable "x" [] = .ok nlpOutX := by
  unfold nlpProcess proseEmpty
  simp only []
  rw [extractKeywords_proseEmpty_x]
  rfl

theorem process_replaces_id_witness :
    nlpOutX.id = "" ∧
    processUpd [nlpProcess proseEmpty entityPatternsTable] doc0 = (nlpOutX, none) :=
  ⟨process_replaces_id.1 proseEmpty entityPatternsTable "x" [] nlpOutX
      nlpProcess_proseEmpty_x,
   (process_replaces_id.2 [nlpProcess proseEmpty entityPatternsTable] doc0 nlpOutX
      (fun p hp c m d'' h => by
        rw [List.mem_singleton] at hp
        subst hp
        exact process_replaces_id.1 proseEmpty entityPatternsTable c m d'' h)
      (by
        unfold process
        rw [if_neg (by simp)]
        simp only [runStages]
        have hc : doc0.content = "x" := rfl
        have hm : doc0.metadata = [] := rfl
        rw [hc, hm, nlpProcess_proseEmpty_x])).1⟩

end AioMcp
